import Mathlib

/-!
Verification of the ruvola session scheduler (src/model/voca_card.rs,
src/model/voca_session.rs) against its specification.

Conventions of the embedding:
* Rust `String` / `&str` values are modelled as `List Char` (`Str`).
* `chrono::NaiveDateTime` is modelled as a record of calendar components
  (`NDT`); comparison is lexicographic, which coincides with chrono's
  timeline order on valid calendar dates.  `chrono::Duration` is modelled
  as a number of seconds (`Int`).
* Machine integers: `u8` values are `Nat`s kept below 256 by the operations
  themselves; where the Rust code performs `u8` arithmetic that can
  overflow (a debug-build panic), the model returns `none`.
* Fallible operations and operations that can panic (slice indexing out of
  bounds, integer overflow, `usize` subtraction underflow) return `Option`;
  `none` models the runtime error.  Error payloads of the Rust `Result`
  types are collapsed into `none` because no claim distinguishes them.
* Queue-construction and the deck transition read the clock; following the
  design note in the spec, "now" is passed as an explicit parameter.
-/

/-- Rust strings, modelled as lists of unicode scalar values. -/
abbrev Str := List Char

/-- `Rust str::split(c)`: the (never empty) list of fields between
separators. -/
def splitChar (c : Char) : Str → List Str
  | [] => [[]]
  | x :: xs =>
    let r := splitChar c xs
    if x = c then [] :: r
    else
      match r with
      | [] => [[x]]
      | p :: ps => (x :: p) :: ps

/-- Concatenate fields back with a separator between them (inverse of
`splitChar`). -/
def joinChar (c : Char) : List Str → Str
  | [] => []
  | [p] => p
  | p :: ps => p ++ c :: joinChar c ps

theorem splitChar_ne_nil (c : Char) (l : Str) : splitChar c l ≠ [] := by
  cases l with
  | nil => simp [splitChar]
  | cons x xs =>
    simp only [splitChar]
    by_cases hx : x = c
    · simp [hx]
    · simp only [if_neg hx]
      cases splitChar c xs <;> simp

theorem joinChar_splitChar (c : Char) (l : Str) : joinChar c (splitChar c l) = l := by
  induction l with
  | nil => rfl
  | cons x xs ih =>
    obtain ⟨p, ps, hps⟩ := List.exists_cons_of_ne_nil (splitChar_ne_nil c xs)
    rw [hps] at ih
    simp only [splitChar]
    by_cases hx : x = c
    · subst hx
      rw [if_pos rfl, hps]
      simpa [joinChar] using ih
    · rw [if_neg hx, hps]
      cases ps with
      | nil => simpa [joinChar] using congrArg (x :: ·) ih
      | cons q qs => simpa [joinChar] using congrArg (x :: ·) ih

/-- `char::is_whitespace` (the Unicode `White_Space` property), as used by
`str::trim`. -/
def rustWhitespace (c : Char) : Bool :=
  let n := c.toNat
  (9 ≤ n && n ≤ 13) || n = 32 || n = 133 || n = 160 || n = 5760 ||
    (8192 ≤ n && n ≤ 8202) || n = 8232 || n = 8233 || n = 8239 || n = 8287 || n = 12288

/-- Rust `str::trim`: remove leading and trailing whitespace. -/
def trimStr (l : Str) : Str :=
  ((l.dropWhile rustWhitespace).reverse.dropWhile rustWhitespace).reverse

/-- UTF-8 byte length of a string, i.e. Rust `str::len`. -/
def utf8Len (l : Str) : Nat := (l.map Char.utf8Size).sum

/-- Levenshtein distance with an explicit fuel argument (the fuel makes the
textbook recursion structural; `levenshtein` supplies enough fuel for the
fuel never to run out). -/
def levF : Nat → Str → Str → Nat
  | _, [], ys => ys.length
  | _, x :: xs, [] => (x :: xs).length
  | 0, _ :: _, _ :: _ => 0
  | fuel + 1, x :: xs, y :: ys =>
    if x = y then levF fuel xs ys
    else 1 + min (levF fuel xs (y :: ys)) (min (levF fuel (x :: xs) ys) (levF fuel xs ys))

/-- The `edit_distance` crate: Levenshtein distance between the char
sequences of two strings. -/
def editDistance (a b : Str) : Nat := levF (a.length + b.length) a b

/-- Rust `u8::from_str`: optional leading `+`, then one or more ASCII
digits; fails on anything else or on a value above 255. -/
def parseU8 (l : Str) : Option Nat :=
  let l := match l with
    | '+' :: rest => rest
    | other => other
  if l.isEmpty then none
  else if l.all Char.isDigit then
    let v := l.foldl (fun acc c => acc * 10 + (c.toNat - 48)) 0
    if v ≤ 255 then some v else none
  else none

/-- Rust `Display` for `u8`: decimal digits, no padding, no sign. -/
def renderU8 (n : Nat) : Str := Nat.toDigits 10 n

/-! ## Calendar: chrono `NaiveDateTime` -/

/-- `chrono::NaiveDateTime`, as calendar components (proleptic Gregorian,
no time zone).  chrono represents years in `-262144..=262143`. -/
structure NDT where
  year : Int
  month : Nat
  day : Nat
  hour : Nat
  minute : Nat
  second : Nat
deriving DecidableEq, Repr

/-- chrono's `Ord` on `NaiveDateTime` (timeline order), which on valid
calendar dates is exactly lexicographic component order. -/
def ltNDT (a b : NDT) : Bool :=
  if a.year < b.year then true else if b.year < a.year then false
  else if a.month < b.month then true else if b.month < a.month then false
  else if a.day < b.day then true else if b.day < a.day then false
  else if a.hour < b.hour then true else if b.hour < a.hour then false
  else if a.minute < b.minute then true else if b.minute < a.minute then false
  else decide (a.second < b.second)

/-- Gregorian leap year. -/
def isLeapYear (y : Int) : Bool :=
  (y % 4 = 0 && y % 100 ≠ 0) || y % 400 = 0

def daysInMonth (y : Int) (m : Nat) : Nat :=
  if m = 2 then (if isLeapYear y then 29 else 28)
  else if m = 4 || m = 6 || m = 9 || m = 11 then 30
  else 31

/-- A valid calendar date-time (what chrono will construct). -/
def validNDT (t : NDT) : Bool :=
  1 ≤ t.month && t.month ≤ 12 && 1 ≤ t.day && t.day ≤ daysInMonth t.year t.month &&
    t.hour ≤ 23 && t.minute ≤ 59 && t.second ≤ 59

/-- A date-time chrono can represent (year range of `NaiveDate`). -/
def chronoRepresentable (t : NDT) : Bool :=
  validNDT t && -262144 ≤ t.year && t.year ≤ 262143

/-- Days from the civil epoch 1970-01-01 (Howard Hinnant's algorithm, as
used by calendar libraries; executable model for date arithmetic). -/
def daysFromCivil (y : Int) (m d : Nat) : Int :=
  let y' : Int := if m ≤ 2 then y - 1 else y
  let era : Int := Int.fdiv y' 400
  let yoe : Int := y' - era * 400
  let mp : Int := if 2 < m then (m : Int) - 3 else (m : Int) + 9
  let doy : Int := Int.fdiv (153 * mp + 2) 5 + (d : Int) - 1
  let doe : Int := yoe * 365 + Int.fdiv yoe 4 - Int.fdiv yoe 100 + doy
  era * 146097 + doe - 719468

/-- Civil date from days since 1970-01-01 (inverse of `daysFromCivil`). -/
def civilFromDays (z0 : Int) : Int × Nat × Nat :=
  let z := z0 + 719468
  let era : Int := Int.fdiv z 146097
  let doe : Int := z - era * 146097
  let yoe : Int := Int.fdiv (doe - Int.fdiv doe 1460 + Int.fdiv doe 36524 - Int.fdiv doe 146096) 365
  let y : Int := yoe + era * 400
  let doy : Int := doe - (365 * yoe + Int.fdiv yoe 4 - Int.fdiv yoe 100)
  let mp : Int := Int.fdiv (5 * doy + 2) 153
  let d : Int := doy - Int.fdiv (153 * mp + 2) 5 + 1
  let m : Int := if mp < 10 then mp + 3 else mp - 9
  (if m ≤ 2 then y + 1 else y, m.toNat, d.toNat)

/-- Seconds since 1970-01-01 00:00:00. -/
def NDT.toSecs (t : NDT) : Int :=
  daysFromCivil t.year t.month t.day * 86400 + t.hour * 3600 + t.minute * 60 + t.second

/-- Date-time from seconds since the epoch. -/
def NDT.ofSecs (n : Int) : NDT :=
  let days := Int.fdiv n 86400
  let rem := (n - days * 86400).toNat
  let ymd := civilFromDays days
  ⟨ymd.1, ymd.2.1, ymd.2.2, rem / 3600, rem % 3600 / 60, rem % 60⟩

/-- The earliest instant chrono's `NaiveDateTime` represents
(`-262144-01-01 00:00:00`), in seconds since the epoch. -/
def ndtMinSecs : Int := NDT.toSecs ⟨-262144, 1, 1, 0, 0, 0⟩

/-- The latest instant chrono's `NaiveDateTime` represents
(`262143-12-31 23:59:59`), in seconds since the epoch. -/
def ndtMaxSecs : Int := NDT.toSecs ⟨262143, 12, 31, 23, 59, 59⟩

/-- chrono `NaiveDateTime + Duration` (timeline addition; the duration is
in seconds).  The `Add` impl is `checked_add_signed(..).expect(..)`: it
panics when the sum leaves the representable range, modelled as `none`. -/
def addDuration (t : NDT) (secs : Int) : Option NDT :=
  let total := t.toSecs + secs
  if ndtMinSecs ≤ total ∧ total ≤ ndtMaxSecs then some (NDT.ofSecs total) else none

/-- `DateTime::UNIX_EPOCH.naive_utc()`. -/
def epochNDT : NDT := ⟨1970, 1, 1, 0, 0, 0⟩

/-! ## Parsing and formatting timestamps: format string `%Y-%m-%d %H:%M:%S`

`parseDate` models `NaiveDateTime::parse_from_str` restricted to
canonically padded inputs (4-digit year, 2-digit other components); chrono
additionally accepts some non-padded and signed inputs, which only widens
its domain.  `renderDate` models formatting with the same format string
(for the years `0..=9999` that `parseDate` produces, chrono pads the year
to 4 digits and emits no sign). -/

def digCh (n : Nat) : Char := Char.ofNat (n + 48)

def digVal (c : Char) : Nat := c.toNat - 48

def pad2 (n : Nat) : Str := [digCh (n / 10 % 10), digCh (n % 10)]

def pad4 (n : Nat) : Str := [digCh (n / 1000 % 10), digCh (n / 100 % 10), digCh (n / 10 % 10), digCh (n % 10)]

def renderDate (t : NDT) : Str :=
  pad4 t.year.toNat ++ '-' :: (pad2 t.month ++ '-' :: (pad2 t.day ++ ' ' ::
    (pad2 t.hour ++ ':' :: (pad2 t.minute ++ ':' :: pad2 t.second))))

def parseDate (l : Str) : Option NDT :=
  match l with
  | [y1, y2, y3, y4, s1, m1, m2, s2, d1, d2, s3, h1, h2, s4, i1, i2, s5, c1, c2] =>
    if y1.isDigit && y2.isDigit && y3.isDigit && y4.isDigit &&
        m1.isDigit && m2.isDigit && d1.isDigit && d2.isDigit &&
        h1.isDigit && h2.isDigit && i1.isDigit && i2.isDigit &&
        c1.isDigit && c2.isDigit &&
        s1 = '-' && s2 = '-' && s3 = ' ' && s4 = ':' && s5 = ':' then
      let t : NDT :=
        ⟨((digVal y1 * 10 + digVal y2) * 10 + digVal y3) * 10 + digVal y4,
          digVal m1 * 10 + digVal m2, digVal d1 * 10 + digVal d2,
          digVal h1 * 10 + digVal h2, digVal i1 * 10 + digVal i2,
          digVal c1 * 10 + digVal c2⟩
      if validNDT t then some t else none
    else none
  | _ => none

/-! ## Configuration types (src/config.rs) and the filter mode -/

/-- The `--all`/`--unseen`/`--seen` due-date filter selected at the CLI
boundary; `is_due` matches exhaustively on exactly these four variants. -/
inductive FilterMode
  | All
  | Unseen
  | Seen
  | Normal
deriving DecidableEq, Repr

/-- `config::MemorizationConfig`. -/
structure MemorizationConfig where
  do_memorization_round : Bool
  memorization_reversed : Bool
deriving DecidableEq, Repr

/-- `config::ValidationConfig`. -/
structure ValidationConfig where
  error_tolerance : Nat
  tolerance_min_length : Nat
deriving DecidableEq, Repr

/-- `config::DeckConfig`; each `DeckInverval` is a `chrono::Duration`,
modelled as its number of seconds. -/
structure DeckConfig where
  deck_intervals : List Int
  change_deck_in_ignore_date : Bool
deriving DecidableEq, Repr

/-! ## The data model (src/model/voca_card.rs) -/

/-- `VocabWord`: displayable base text plus accepted answer variants. -/
structure VocabWord where
  base : Str
  variants : List Str
deriving DecidableEq, Repr

/-- Whether the regex `\(.*\)` matches somewhere in `s`: with a greedy,
non-newline-crossing `.*`, `find` succeeds exactly when some `(` is
followed by a later `)`; equivalently the first `(` precedes the last `)`.
(The model ignores the `.*`-does-not-match-newline restriction; theorems
about `VocabWord::from_str` therefore assume newline-free input, which is
guaranteed for fields read from a line-based file.) -/
def bracketFound (s : Str) : Bool :=
  match s.findIdx? (· = '('), (s.reverse.findIdx? (· = ')')).map (fun k => s.length - 1 - k) with
  | some i, some j => decide (i < j)
  | _, _ => false

/-- `BRACKET_REGEX.replace_all(s, "")`: removing the single greedy match
deletes everything from the first `(` through the last `)`. -/
def bracketRemoved (s : Str) : Str :=
  match s.findIdx? (· = '('), (s.reverse.findIdx? (· = ')')).map (fun k => s.length - 1 - k) with
  | some i, some j => if i < j then s.take i ++ s.drop (j + 1) else s
  | _, _ => s

/-- `VocabWord::from_str`. -/
def VocabWord.from_str (s : Str) : VocabWord :=
  let base := s
  let comma_split := splitChar ',' s
  let variants :=
    if 1 < comma_split.length then base :: comma_split.map trimStr else [base]
  let bracket_variants :=
    variants.filterMap (fun v => if bracketFound v then some (trimStr (bracketRemoved v)) else none)
  ⟨base, variants ++ bracket_variants⟩

/-- `VocabMetadata`: per-direction deck index (`u8`) and due timestamp. -/
structure VocabMetadata where
  due_date : NDT
  deck : Nat
  due_date_reverse : NDT
  deck_reverse : Nat
deriving DecidableEq, Repr

/-- `VocabMetadata::default()`: decks 0, due dates `DateTime::UNIX_EPOCH`. -/
def VocabMetadata.default : VocabMetadata :=
  ⟨epochNDT, 0, epochNDT, 0⟩

/-- `Vocab`: a word pair with optional scheduling metadata. -/
structure Vocab where
  word_a : VocabWord
  word_b : VocabWord
  metadata : Option VocabMetadata
deriving DecidableEq, Repr

/-- `Vocab::is_due`. -/
def Vocab.is_due (v : Vocab) (reverse : Bool) (filter_mode : FilterMode) (current_date : NDT) : Bool :=
  match filter_mode with
  | .All => true
  | .Unseen => v.metadata.isNone
  | .Seen | .Normal =>
    match v.metadata with
    | some metadata =>
      if reverse then ltNDT metadata.due_date_reverse current_date
      else ltNDT metadata.due_date current_date
    | none => filter_mode = FilterMode.Normal

/-- `Vocab::update_metadata`. -/
def Vocab.update_metadata (v : Vocab) (deck : Nat) (due_date : NDT) (reverse : Bool) : Vocab :=
  if reverse then
    { v with metadata := some { v.metadata.getD VocabMetadata.default with
        deck_reverse := deck, due_date_reverse := due_date } }
  else
    { v with metadata := some { v.metadata.getD VocabMetadata.default with
        deck := deck, due_date := due_date } }

/-- `Vocab::get_deck`. -/
def Vocab.get_deck (v : Vocab) (reverse : Bool) : Option Nat :=
  v.metadata.map fun metadata => if reverse then metadata.deck_reverse else metadata.deck

/-- `Vocab::from_line`: split on tabs; fields 1-2 are the words, optional
fields 3-6 are deck, due date, reverse deck, reverse due date (any extra
fields are ignored, as the Rust iterator is simply not exhausted). -/
def Vocab.from_line (line : Str) : Option Vocab :=
  match splitChar '\t' line with
  | [] => none
  | [_] => none
  | [word_a, word_b] =>
    some ⟨VocabWord.from_str word_a, VocabWord.from_str word_b, none⟩
  | word_a :: word_b :: deckS :: rest =>
    match rest with
    | dateS :: deckBS :: dateBS :: _ => do
      let deck ← parseU8 deckS
      let date ← parseDate dateS
      let deck_b ← parseU8 deckBS
      let date_b ← parseDate dateBS
      some ⟨VocabWord.from_str word_a, VocabWord.from_str word_b,
        some ⟨date, deck, date_b, deck_b⟩⟩
    | _ => none

/-- `VocaCardDataset`. -/
structure VocaCardDataset where
  cards : List Vocab
  file_path : Str
  lang_a : Str
  lang_b : Str
deriving DecidableEq, Repr

/-- The card-parsing loop of `VocaCardDataset::from_file`: blank lines are
skipped, any malformed line aborts the whole load. -/
def parseCardLines : List Str → Option (List Vocab)
  | [] => some []
  | l :: ls =>
    if (trimStr l).isEmpty then parseCardLines ls
    else do
      let c ← Vocab.from_line l
      let cs ← parseCardLines ls
      some (c :: cs)

/-- `VocaCardDataset::from_file`, at the level of the file's lines: the
first line is the tab-separated language header (at least two fields; any
further fields are ignored), the rest are card lines. -/
def VocaCardDataset.fromLines (file_path : Str) (lines : List Str) : Option VocaCardDataset :=
  match lines with
  | [] => none
  | header :: rest =>
    match splitChar '\t' header with
    | [] => none
    | [_] => none
    | lang_a :: lang_b :: _ => do
      let cards ← parseCardLines rest
      some ⟨cards, file_path, lang_a, lang_b⟩

/-! ## The session (src/model/voca_session.rs) -/

/-- `VocabTask`: the data handed to the UI for one queue item. -/
structure VocabTask where
  query : Str
  answer : Str
  answer_variants : List Str
  show_answer : Bool
deriving DecidableEq, Repr

/-- `VocabTask::is_correct`: scan the variants in order; short variants
(byte length below `tolerance_min_length`) must match exactly, the others
within the edit-distance tolerance. -/
def VocabTask.is_correct_go (answer : Str) (val_config : ValidationConfig) : List Str → Bool
  | [] => false
  | variant :: rest =>
    if utf8Len variant < val_config.tolerance_min_length then
      if answer = variant then true else VocabTask.is_correct_go answer val_config rest
    else if editDistance variant answer ≤ val_config.error_tolerance then true
    else VocabTask.is_correct_go answer val_config rest

def VocabTask.is_correct (t : VocabTask) (answer : Str) (val_config : ValidationConfig) : Bool :=
  VocabTask.is_correct_go answer val_config t.answer_variants

/-- `VocabItem`: an opaque queue reference `(dataset, card, direction,
memorization flag)`. -/
structure VocabItem where
  dataset : Nat
  card : Nat
  reverse : Bool
  memorization_card : Bool
deriving DecidableEq, Repr

/-- `VocaSession` (the `VecDeque` queue is a list whose head is the
queue front). -/
structure VocaSession where
  datasets : List VocaCardDataset
  queue : List VocabItem
  has_changes : Bool
  total_due : Nat
deriving DecidableEq, Repr

/-- Look a card up by indices, as the fallible counterpart of Rust's
panicking `self.datasets[i].cards[j]`. -/
def getCard (ds : List VocaCardDataset) (i j : Nat) : Option Vocab :=
  (ds.get? i).bind fun d => d.cards.get? j

/-- Write a card back at given indices (callers establish the indices are
in bounds beforehand via `getCard`). -/
def setCard (ds : List VocaCardDataset) (i j : Nat) (c : Vocab) : List VocaCardDataset :=
  match ds.get? i with
  | some d => ds.set i { d with cards := d.cards.set j c }
  | none => ds

/-- `.iter().enumerate()`, starting at `n`. -/
def enumFrom (n : Nat) : List α → List (Nat × α)
  | [] => []
  | x :: xs => (n, x) :: enumFrom (n + 1) xs

/-- The flattened `((dataset index, card index), card)` sequence built at
the start of `VocaSession::new`. -/
def allVocabs (datasets : List VocaCardDataset) : List ((Nat × Nat) × Vocab) :=
  (enumFrom 0 datasets).flatMap fun p =>
    (enumFrom 0 p.2.cards).map fun q => ((p.1, q.1), q.2)

/-- The comparator passed to `sort_by`: cards without metadata first,
cards with metadata by ascending forward due date. -/
def vocabOrd (a b : ((Nat × Nat) × Vocab)) : Ordering :=
  match a.2.metadata, b.2.metadata with
  | some x, some y =>
    if ltNDT x.due_date y.due_date then .lt
    else if x.due_date = y.due_date then .eq
    else .gt
  | some _, none => .gt
  | none, some _ => .lt
  | none, none => .eq

/-- Stable insertion into a sorted accumulator: a later element goes
before the first strictly greater one, after equal ones. -/
def insertStable (cmp : α → α → Ordering) (x : α) : List α → List α
  | [] => [x]
  | y :: ys => if cmp y x = .gt then x :: y :: ys else y :: insertStable cmp x ys

/-- `Vec::sort_by` (a stable sort with respect to `cmp`). -/
def sortStable (cmp : α → α → Ordering) (l : List α) : List α :=
  l.foldl (fun acc x => insertStable cmp x acc) []

/-- `num_cards >= limit` (when a limit was given). -/
def limitHit : Option Nat → Nat → Bool
  | none, _ => false
  | some l, n => decide (l ≤ n)

/-- The partitioning loop of `VocaSession::new`: iterate the flattened
sequence, breaking once the distinct-card counter hits the limit, and push
items onto the memorization / forward / reverse sub-queues. -/
def buildQueues (filter_mode : FilterMode) (memorization_config : MemorizationConfig)
    (current_date : NDT) (limit : Option Nat) :
    List ((Nat × Nat) × Vocab) → Nat → List VocabItem × List VocabItem × List VocabItem
  | [], _ => ([], [], [])
  | (ij, card) :: rest, num_cards =>
    if limitHit limit num_cards then ([], [], [])
    else
      let add_to_queue := card.is_due false filter_mode current_date
      let add_to_queue_reverse := card.is_due true filter_mode current_date
      let card_used := add_to_queue || add_to_queue_reverse
      let next := buildQueues filter_mode memorization_config current_date limit rest
        (if card_used then num_cards + 1 else num_cards)
      let queue_unseen :=
        if card.metadata.isNone && memorization_config.do_memorization_round && card_used then
          ⟨ij.1, ij.2, memorization_config.memorization_reversed, true⟩ :: next.1
        else next.1
      let queue_seen :=
        if add_to_queue then (⟨ij.1, ij.2, false, false⟩ : VocabItem) :: next.2.1 else next.2.1
      let queue_reverse :=
        if add_to_queue_reverse then (⟨ij.1, ij.2, true, false⟩ : VocabItem) :: next.2.2 else next.2.2
      (queue_unseen, queue_seen, queue_reverse)

/-- `VocaSession::new` ("now" passed explicitly; the final queue is the
memorization, forward and reverse sub-queues concatenated in that
order, and `total_due` is its length). -/
def VocaSession.new (datasets : List VocaCardDataset) (filter_mode : FilterMode)
    (sorted : Bool) (limit : Option Nat) (memorization_config : MemorizationConfig)
    (current_date : NDT) : VocaSession :=
  let all_vocabs := allVocabs datasets
  let all_vocabs := if sorted then sortStable vocabOrd all_vocabs else all_vocabs
  let qs := buildQueues filter_mode memorization_config current_date limit all_vocabs 0
  let queue := qs.1 ++ qs.2.1 ++ qs.2.2
  ⟨datasets, queue, false, queue.length⟩

/-- `VocaSession::from_files`, at the level of each file's lines. -/
def VocaSession.from_files (files : List (Str × List Str)) (filter_mode : FilterMode)
    (sorted : Bool) (limit : Option Nat) (memorization_config : MemorizationConfig)
    (current_date : NDT) : Option VocaSession := do
  let datasets ← files.mapM fun f => VocaCardDataset.fromLines f.1 f.2
  some (VocaSession.new datasets filter_mode sorted limit memorization_config current_date)

/-- `VocaSession::current_task` (total: the Rust code uses the
non-panicking `.get` accessors here). -/
def VocaSession.current_task (s : VocaSession) : Option VocabTask :=
  s.queue.head?.bind fun index =>
    (s.datasets.get? index.dataset).bind fun d =>
      (d.cards.get? index.card).map fun card =>
        let query := if index.reverse then card.word_b else card.word_a
        let answer := if index.reverse then card.word_a else card.word_b
        ⟨query.base, answer.base, answer.variants, index.memorization_card⟩

/-- `VocaSession::current_target_lang` (total, non-panicking). -/
def VocaSession.current_target_lang (s : VocaSession) : Option Str :=
  s.queue.head?.bind fun index =>
    (s.datasets.get? index.dataset).map fun d =>
      if index.reverse then d.lang_a else d.lang_b

/-- `VocaSession::skip_card`: a graded item is rotated to the back
untouched; a memorization item is retired and the card's metadata reset to
the default.  `none` models the panic of the direct indexing
`self.datasets[i].cards[j]` on an invalid reference. -/
def VocaSession.skip_card (s : VocaSession) : Option VocaSession :=
  match s.queue with
  | [] => some s
  | index :: rest =>
    if !index.memorization_card then
      some { s with queue := rest ++ [index] }
    else
      match getCard s.datasets index.dataset index.card with
      | none => none
      | some card =>
        some { s with
          datasets := setCard s.datasets index.dataset index.card
            { card with metadata := some VocabMetadata.default },
          queue := rest,
          has_changes := true }

/-- `VocaSession::next_card`.  `none` models a panic: invalid indices, the
`u8` overflow in `current_deck + 1`, the `u8` underflow in
`deck_durations.len() as u8 - 1` (the `as u8` cast truncates mod 256), or
an out-of-bounds `deck_durations[new_deck]`. -/
def VocaSession.next_card (s : VocaSession) (answer_correct : Bool) (deck_config : DeckConfig)
    (current_date : NDT) : Option VocaSession :=
  match s.queue with
  | [] => some s
  | current_item :: rest =>
    match getCard s.datasets current_item.dataset current_item.card with
    | none => none
    | some card =>
      let deck_durations := deck_config.deck_intervals
      let current_deck := (card.get_deck current_item.reverse).getD 0
      if current_item.memorization_card then
        some { s with
          datasets := setCard s.datasets current_item.dataset current_item.card
            { card with metadata := some VocabMetadata.default },
          queue := rest,
          has_changes := true }
      else if answer_correct then
        if 255 < current_deck + 1 then none
        else if deck_durations.length % 256 = 0 then none
        else
          let new_deck := min (current_deck + 1) (deck_durations.length % 256 - 1)
          match deck_durations.get? new_deck with
          | none => none
          | some dur =>
            match addDuration current_date dur with
            | none => none
            | some due =>
              some { s with
                datasets := setCard s.datasets current_item.dataset current_item.card
                  (card.update_metadata new_deck due current_item.reverse),
                queue := rest,
                has_changes := true }
      else
        let new_deck := current_deck - 1
        match deck_durations.get? new_deck with
        | none => none
        | some dur =>
          match addDuration current_date dur with
          | none => none
          | some due =>
            some { s with
              datasets := setCard s.datasets current_item.dataset current_item.card
                (card.update_metadata new_deck due current_item.reverse),
              queue := rest ++ [current_item],
              has_changes := true }

/-- `VocaSession::current_progress`; `none` models the debug-build panic
of the `usize` subtraction `total_due - queue.len()` on underflow. -/
def VocaSession.current_progress (s : VocaSession) : Option Nat :=
  if s.queue.length ≤ s.total_due then some (s.total_due - s.queue.length) else none

/-- `VocaSession::save`, at the level of the lines written per dataset. -/
def Vocab.saveLine (card : Vocab) : Str :=
  match card.metadata with
  | some metadata =>
    card.word_a.base ++ '\t' :: (card.word_b.base ++ '\t' ::
      (renderU8 metadata.deck ++ '\t' :: (renderDate metadata.due_date ++ '\t' ::
        (renderU8 metadata.deck_reverse ++ '\t' :: renderDate metadata.due_date_reverse))))
  | none => card.word_a.base ++ '\t' :: card.word_b.base

def VocaCardDataset.saveLines (d : VocaCardDataset) : List Str :=
  (d.lang_a ++ '\t' :: d.lang_b) :: d.cards.map Vocab.saveLine

def VocaSession.save (s : VocaSession) : List (Str × List Str) :=
  s.datasets.map fun d => (d.file_path, d.saveLines)

/-! ## The review loop -/

/-- One call of the interactive loop into the scheduler. -/
inductive SessionOp
  | task
  | targetLang
  | next (answer_correct : Bool) (current_date : NDT)
  | skip
  | progress
deriving DecidableEq, Repr

/-- Run one scheduler call; `none` models a runtime error (panic). -/
def stepOp (deck_config : DeckConfig) (s : VocaSession) : SessionOp → Option VocaSession
  | .task => (fun _ => s) <$> some s.current_task
  | .targetLang => (fun _ => s) <$> some s.current_target_lang
  | .next answer_correct current_date => s.next_card answer_correct deck_config current_date
  | .skip => s.skip_card
  | .progress => s.current_progress.map fun _ => s

/-- Run a whole sequence of scheduler calls. -/
def runOps (deck_config : DeckConfig) (s : VocaSession) : List SessionOp → Option VocaSession
  | [] => some s
  | op :: ops => (stepOp deck_config s op).bind fun s' => runOps deck_config s' ops

/-! ## Helper lemmas -/

theorem is_correct_go_iff (answer : Str) (cfg : ValidationConfig) (vs : List Str) :
    VocabTask.is_correct_go answer cfg vs = true ↔
      ∃ v ∈ vs, (utf8Len v < cfg.tolerance_min_length ∧ answer = v) ∨
        (cfg.tolerance_min_length ≤ utf8Len v ∧ editDistance v answer ≤ cfg.error_tolerance) := by
  induction vs with
  | nil => simp [VocabTask.is_correct_go]
  | cons v rest ih =>
    simp only [VocabTask.is_correct_go]
    by_cases h1 : utf8Len v < cfg.tolerance_min_length
    · by_cases h2 : answer = v
      · simp only [if_pos h1, if_pos h2, true_iff]
        exact ⟨v, List.mem_cons_self .., Or.inl ⟨h1, h2⟩⟩
      · simp only [if_pos h1, if_neg h2, ih]
        constructor
        · rintro ⟨w, hw, hor⟩
          exact ⟨w, List.mem_cons_of_mem _ hw, hor⟩
        · rintro ⟨w, hw, hor⟩
          rcases List.mem_cons.mp hw with rfl | hw'
          · rcases hor with ⟨_, h⟩ | ⟨hge, _⟩
            · exact absurd h h2
            · exact absurd h1 (Nat.not_lt.mpr hge)
          · exact ⟨w, hw', hor⟩
    · by_cases h3 : editDistance v answer ≤ cfg.error_tolerance
      · simp only [if_neg h1, if_pos h3, true_iff]
        exact ⟨v, List.mem_cons_self .., Or.inr ⟨Nat.le_of_not_lt h1, h3⟩⟩
      · simp only [if_neg h1, if_neg h3, ih]
        constructor
        · rintro ⟨w, hw, hor⟩
          exact ⟨w, List.mem_cons_of_mem _ hw, hor⟩
        · rintro ⟨w, hw, hor⟩
          rcases List.mem_cons.mp hw with rfl | hw'
          · rcases hor with ⟨hlt, _⟩ | ⟨_, h⟩
            · exact absurd hlt h1
            · exact absurd h h3
          · exact ⟨w, hw', hor⟩

/-! ## The claims -/

/-- The filter-mode due table exactly as the specification states it. -/
def isDueSpec (filter_mode : FilterMode) (v : Vocab) (reverse : Bool) (now : NDT) : Bool :=
  match filter_mode, v.metadata with
  | .All, _ => true
  | .Unseen, none => true
  | .Unseen, some _ => false
  | .Seen, none => false
  | .Seen, some m => ltNDT (if reverse then m.due_date_reverse else m.due_date) now
  | .Normal, none => true
  | .Normal, some m => ltNDT (if reverse then m.due_date_reverse else m.due_date) now

/-- Claim C3: `Vocab::is_due` returns exactly what the filter-mode table
prescribes (All: always; Unseen: iff no metadata; Seen: metadata present
and that direction's due timestamp strictly before now; Normal: no
metadata, or that direction's due timestamp strictly before now); hence
mode Seen never selects a card without metadata and mode Unseen never
selects a card with metadata. -/
theorem is_due_matches_filter_table :
    (∀ (v : Vocab) (reverse : Bool) (mode : FilterMode) (now : NDT),
      v.is_due reverse mode now = isDueSpec mode v reverse now) ∧
    (∀ (v : Vocab) (reverse : Bool) (now : NDT),
      v.metadata = none → v.is_due reverse FilterMode.Seen now = false) ∧
    (∀ (v : Vocab) (reverse : Bool) (now : NDT),
      v.metadata.isSome = true → v.is_due reverse FilterMode.Unseen now = false) := by
  refine ⟨fun v reverse mode now => ?_, fun v reverse now h => ?_, fun v reverse now h => ?_⟩
  · cases mode <;> cases hm : v.metadata <;>
      simp [Vocab.is_due, isDueSpec, hm] <;> cases reverse <;> simp
  · simp [Vocab.is_due, h]
  · rcases Option.isSome_iff_exists.mp h with ⟨m, hm⟩
    simp [Vocab.is_due, hm]

/-- Claim C3, witness: concrete evaluations discharging the hypotheses of
the second and third conjuncts. -/
theorem is_due_matches_filter_table_witness :
    (⟨⟨("a").data, [("a").data]⟩, ⟨("b").data, [("b").data]⟩, none⟩ : Vocab).is_due false
        FilterMode.Seen epochNDT = false ∧
    (⟨⟨("a").data, [("a").data]⟩, ⟨("b").data, [("b").data]⟩,
        some VocabMetadata.default⟩ : Vocab).is_due false FilterMode.Unseen epochNDT = false :=
  ⟨is_due_matches_filter_table.2.1 _ false epochNDT rfl,
   is_due_matches_filter_table.2.2 _ false epochNDT rfl⟩

/-- The fixed example task of the specification: variants
`["hola","saludo"]`. -/
def exampleTask : VocabTask :=
  ⟨("hello").data, ("hola").data, [("hola").data, ("saludo").data], false⟩

/-- The fixed example tolerance of the specification:
`{error_tolerance: 1, tolerance_min_length: 3}`. -/
def exampleTolerance : ValidationConfig := ⟨1, 3⟩

/-- Claim C6: `VocabTask::is_correct` accepts exactly when some variant
matches — a variant shorter (in bytes) than `tolerance_min_length` must
equal the submitted answer, any other variant must be within edit distance
`error_tolerance` — and on the specification's example
(variants `hola`/`saludo`, tolerance 1, minimum length 3) it accepts
`hola`, `hola!` and `saludo` and rejects `hello`. -/
theorem is_correct_matches_variants :
    (∀ (t : VocabTask) (answer : Str) (cfg : ValidationConfig),
      t.is_correct answer cfg = true ↔
        ∃ v ∈ t.answer_variants,
          (utf8Len v < cfg.tolerance_min_length ∧ answer = v) ∨
          (cfg.tolerance_min_length ≤ utf8Len v ∧ editDistance v answer ≤ cfg.error_tolerance)) ∧
    exampleTask.is_correct ("hola").data exampleTolerance = true ∧
    exampleTask.is_correct ("hola!").data exampleTolerance = true ∧
    exampleTask.is_correct ("saludo").data exampleTolerance = true ∧
    exampleTask.is_correct ("hello").data exampleTolerance = false :=
  ⟨fun t answer cfg => is_correct_go_iff answer cfg t.answer_variants,
   by decide, by decide, by decide, by decide⟩

/-- Claim C9: on a graded (non-memorization) front item, `skip_card` is a
pure rotation: the item moves unchanged to the back and the datasets, the
change flag, the session total and the queue length are all untouched. -/
theorem skip_card_graded_pure_rotation (s : VocaSession) (item : VocabItem)
    (rest : List VocabItem) (hq : s.queue = item :: rest)
    (hm : item.memorization_card = false) :
    s.skip_card = some ⟨s.datasets, rest ++ [item], s.has_changes, s.total_due⟩ ∧
      (rest ++ [item]).length = s.queue.length := by
  constructor
  · simp [VocaSession.skip_card, hq, hm]
  · simp [hq]

/-- A minimal concrete session with one graded queue item. -/
def oneItemSession : VocaSession := ⟨[], [⟨0, 0, false, false⟩], false, 1⟩

/-- Claim C9, witness: the rotation on a concrete one-item session. -/
theorem skip_card_graded_pure_rotation_witness :
    oneItemSession.skip_card =
        some ⟨oneItemSession.datasets, [] ++ [⟨0, 0, false, false⟩],
          oneItemSession.has_changes, oneItemSession.total_due⟩ ∧
      (([] ++ [⟨0, 0, false, false⟩] : List VocabItem)).length =
        oneItemSession.queue.length :=
  skip_card_graded_pure_rotation oneItemSession ⟨0, 0, false, false⟩ [] rfl rfl

theorem splitChar_length_gt_one (c : Char) (l : Str) :
    1 < (splitChar c l).length ↔ c ∈ l := by
  induction l with
  | nil => simp [splitChar]
  | cons x xs ih =>
    obtain ⟨p, ps, hps⟩ := List.exists_cons_of_ne_nil (splitChar_ne_nil c xs)
    rw [hps] at ih
    simp only [splitChar]
    by_cases hx : x = c
    · subst hx
      rw [if_pos rfl, hps]
      simp
    · rw [if_neg hx, hps]
      simp only [List.length_cons, List.mem_cons]
      constructor
      · intro h
        exact Or.inr (ih.mp (by simpa using h))
      · rintro (rfl | h)
        · exact absurd rfl hx
        · simpa using ih.mpr h

/-- The variant list exactly as the specification derives it: the base
first; then, when the base contains a comma, each trimmed comma segment;
then, for each variant collected so far containing a parenthesized
segment, that variant with the segment removed and trimmed. -/
def variantsSpec (s : Str) : List Str :=
  let stage1 := s :: (if ',' ∈ s then (splitChar ',' s).map trimStr else [])
  stage1 ++ stage1.filterMap fun v =>
    if bracketFound v then some (trimStr (bracketRemoved v)) else none

/-- Claim C8: `VocabWord::from_str` keeps the raw field as `base` and
derives exactly the specification's variant list (duplicates kept).  The
newline-free hypothesis marks the boundary of the regex model: the regex
`.*` cannot cross a newline, and fields read from a line-based file never
contain one.  The conjuncts also pin the repository's own two test
vectors. -/
theorem from_str_variant_derivation :
    (∀ s : Str, '\n' ∉ s → VocabWord.from_str s = ⟨s, variantsSpec s⟩) ∧
    (VocabWord.from_str ("hello,hi").data).variants =
      [("hello,hi").data, ("hello").data, ("hi").data] ∧
    (VocabWord.from_str ("hello (greeting)").data).variants =
      [("hello (greeting)").data, ("hello").data] := by
  refine ⟨fun s _ => ?_, by decide, by decide⟩
  simp only [VocabWord.from_str, variantsSpec]
  by_cases hc : ',' ∈ s
  · simp [hc, (splitChar_length_gt_one ',' s).mpr hc]
  · have h2 : ¬1 < (splitChar ',' s).length := fun h => hc ((splitChar_length_gt_one ',' s).mp h)
    simp [hc, h2]

/-- Claim C8, witness: the derivation applied to a concrete field. -/
theorem from_str_variant_derivation_witness :
    VocabWord.from_str ("hola, saludo (greeting)").data =
      ⟨("hola, saludo (greeting)").data, variantsSpec ("hola, saludo (greeting)").data⟩ :=
  from_str_variant_derivation.1 _ (by decide)

theorem listGetMem {α : Type} : ∀ (l : List α) (n : Nat) (a : α), l.get? n = some a → a ∈ l := by
  intro l
  induction l with
  | nil => intro n a h; simp at h
  | cons x xs ih =>
    intro n a h
    cases n with
    | zero =>
      obtain rfl := Option.some.inj h
      exact List.mem_cons_self ..
    | succ k => exact List.mem_cons_of_mem _ (ih k a (by simpa using h))

theorem next_card_graded_eq (s : VocaSession) (item : VocabItem) (rest : List VocabItem)
    (cfg : DeckConfig) (now : NDT) (b : Bool) (card : Vocab) (nd : Nat)
    (hq : s.queue = item :: rest) (hm : item.memorization_card = false)
    (hc : getCard s.datasets item.dataset item.card = some card)
    (hN1 : 1 ≤ cfg.deck_intervals.length) (hN2 : cfg.deck_intervals.length ≤ 255)
    (hd : (card.get_deck item.reverse).getD 0 < cfg.deck_intervals.length)
    (hnd : nd = if b then
        min ((card.get_deck item.reverse).getD 0 + 1) (cfg.deck_intervals.length - 1)
      else (card.get_deck item.reverse).getD 0 - 1) :
    nd < cfg.deck_intervals.length ∧
    ∃ dur, cfg.deck_intervals.get? nd = some dur ∧
      s.next_card b cfg now = (addDuration now dur).map fun due =>
        ⟨setCard s.datasets item.dataset item.card
          (card.update_metadata nd due item.reverse),
          (if b then rest else rest ++ [item]), true, s.total_due⟩ := by
  have hlt : nd < cfg.deck_intervals.length := by
    cases b <;> simp only [if_true, if_false, Bool.false_eq_true, ite_false, ite_true] at hnd <;> omega
  refine ⟨hlt, cfg.deck_intervals.get ⟨nd, hlt⟩, List.get?_eq_get hlt, ?_⟩
  simp only [VocaSession.next_card, hq, hc, hm, Bool.false_eq_true, if_false]
  cases b with
  | true =>
    have h1 : ¬255 < (card.get_deck item.reverse).getD 0 + 1 := by omega
    have h2 : cfg.deck_intervals.length % 256 = cfg.deck_intervals.length :=
      Nat.mod_eq_of_lt (by omega)
    have h3 : ¬cfg.deck_intervals.length = 0 := by omega
    simp only [if_true, if_neg h1, h2, if_neg h3]
    simp only [if_true] at hnd
    rw [← hnd, List.get?_eq_get hlt]
    cases h : addDuration now (cfg.deck_intervals.get ⟨nd, hlt⟩) <;> simp only [h] <;> rfl
  | false =>
    simp only [Bool.false_eq_true, if_false] at hnd ⊢
    rw [← hnd, List.get?_eq_get hlt]
    cases h : addDuration now (cfg.deck_intervals.get ⟨nd, hlt⟩) <;> simp only [h] <;> rfl

/-- Claim C1 (amended: the ladder length `N` must lie in `1..=255`, the
item's current deck index must be below `N` — the invariant the scheduler
itself maintains — and the due timestamps `now + interval[k]` must stay in
chrono's representable range; outside these bounds the code panics, see
the counterexample): for a graded front item, `next_card` sets that
direction's deck to `min(current_deck + 1, N − 1)` on a correct answer and
to `max(current_deck − 1, 0)` (natural subtraction) on an incorrect one —
so the deck never leaves `[0, N − 1]` — re-enqueues the item at the back
only in the incorrect case, sets that direction's due timestamp to
`now + interval[new_deck]`, and marks `has_changes`. -/
theorem next_card_graded_deck_transition (s : VocaSession) (item : VocabItem)
    (rest : List VocabItem) (cfg : DeckConfig) (now : NDT) (b : Bool) (card : Vocab)
    (hq : s.queue = item :: rest) (hm : item.memorization_card = false)
    (hc : getCard s.datasets item.dataset item.card = some card)
    (hN1 : 1 ≤ cfg.deck_intervals.length) (hN2 : cfg.deck_intervals.length ≤ 255)
    (hd : (card.get_deck item.reverse).getD 0 < cfg.deck_intervals.length)
    (hadd : ∀ dur ∈ cfg.deck_intervals, (addDuration now dur).isSome = true) :
    ∃ new_deck dur due,
      new_deck = (if b then
          min ((card.get_deck item.reverse).getD 0 + 1) (cfg.deck_intervals.length - 1)
        else (card.get_deck item.reverse).getD 0 - 1) ∧
      new_deck ≤ cfg.deck_intervals.length - 1 ∧
      cfg.deck_intervals.get? new_deck = some dur ∧
      addDuration now dur = some due ∧
      s.next_card b cfg now = some ⟨setCard s.datasets item.dataset item.card
        (card.update_metadata new_deck due item.reverse),
        (if b then rest else rest ++ [item]), true, s.total_due⟩ := by
  obtain ⟨hlt, dur, hget, heq⟩ :=
    next_card_graded_eq s item rest cfg now b card _ hq hm hc hN1 hN2 hd rfl
  obtain ⟨due, hdue⟩ :=
    Option.isSome_iff_exists.mp (hadd dur (listGetMem _ _ _ hget))
  refine ⟨_, dur, due, rfl, by omega, hget, hdue, ?_⟩
  rw [heq, hdue]
  rfl

/-- A graded card stored on deck 3 (both directions). -/
def cardDeck3 : Vocab :=
  ⟨VocabWord.from_str ("a").data, VocabWord.from_str ("b").data,
    some ⟨⟨2023, 10, 1, 12, 0, 0⟩, 3, ⟨2023, 10, 1, 12, 0, 0⟩, 3⟩⟩

/-- A session whose front item is the forward direction of `cardDeck3`. -/
def gradedSession : VocaSession :=
  ⟨[⟨[cardDeck3], ("vocab.txt").data, ("en").data, ("de").data⟩],
    [⟨0, 0, false, false⟩, ⟨0, 0, true, false⟩], false, 2⟩

/-- The default-like nine-rung interval ladder, in seconds. -/
def ladder9 : DeckConfig :=
  ⟨[0, 86400, 604800, 1209600, 2592000, 5184000, 7776000, 15552000, 31536000], false⟩

def memOffConfig : MemorizationConfig := ⟨false, false⟩

def memOnConfig : MemorizationConfig := ⟨true, false⟩

def sampleNow : NDT := ⟨2025, 1, 1, 0, 0, 0⟩

/-- Claim C1, witness: the deck transition on a concrete session (deck 3,
nine-rung ladder, correct answer). -/
theorem next_card_graded_deck_transition_witness :
    ∃ new_deck dur due,
      new_deck = (if true then
          min ((cardDeck3.get_deck false).getD 0 + 1) (ladder9.deck_intervals.length - 1)
        else (cardDeck3.get_deck false).getD 0 - 1) ∧
      new_deck ≤ ladder9.deck_intervals.length - 1 ∧
      ladder9.deck_intervals.get? new_deck = some dur ∧
      addDuration sampleNow dur = some due ∧
      gradedSession.next_card true ladder9 sampleNow =
        some ⟨setCard gradedSession.datasets 0 0
          (cardDeck3.update_metadata new_deck due false),
          (if true then [⟨0, 0, true, false⟩] else [⟨0, 0, true, false⟩] ++ [⟨0, 0, false, false⟩]),
          true, gradedSession.total_due⟩ :=
  next_card_graded_deck_transition gradedSession ⟨0, 0, false, false⟩ [⟨0, 0, true, false⟩]
    ladder9 sampleNow true cardDeck3 rfl rfl rfl (by decide) (by decide) (by decide)
    (by decide)

/-- A dataset file whose single card sits on deck 255 in both directions
(a value the parser accepts, `255 ≤ u8::MAX`). -/
def deck255Lines : List Str :=
  [("en\tde").data, ("a\tb\t255\t2023-10-01 12:00:00\t255\t2023-10-01 12:00:00").data]

/-- A configuration-parseable one-rung ladder of `Duration::days(4294967295)`
(`DeckIntervalSer::Days` accepts any `u32`), in seconds. -/
def hugeLadder : DeckConfig := ⟨[371085174288000], false⟩

/-- A dataset file with one never-reviewed card. -/
def unseenLines : List Str := [("en	de").data, ("a	b").data]

/-- Claim C1, counterexample: on a session loaded from a parsed dataset
whose card is on deck 255, a correct answer makes `next_card` panic on the
`u8` overflow of `current_deck + 1` (modelled as `none`) instead of
performing the `min(current_deck + 1, N − 1)` transition the claim
prescribes for every ladder and every graded item; and with the
config-accepted one-rung ladder of 4294967295 days, even a deck-0 card
panics at `now + interval[new_deck]` (chrono date overflow) instead of
being updated. -/
theorem next_card_graded_deck_transition_counterexample :
    (VocaCardDataset.fromLines ("vocab.txt").data deck255Lines).isSome = true ∧
    ((VocaCardDataset.fromLines ("vocab.txt").data deck255Lines).map fun d =>
      (VocaSession.new [d] FilterMode.All false none memOffConfig sampleNow).queue.head?.map
        fun it => it.memorization_card) = some (some false) ∧
    ((VocaCardDataset.fromLines ("vocab.txt").data deck255Lines).map fun d =>
      (VocaSession.new [d] FilterMode.All false none memOffConfig sampleNow).next_card
        true ladder9 sampleNow) = some none ∧
    (VocaCardDataset.fromLines ("vocab.txt").data unseenLines).isSome = true ∧
    ((VocaCardDataset.fromLines ("vocab.txt").data unseenLines).map fun d =>
      (VocaSession.new [d] FilterMode.All false none memOffConfig sampleNow).queue.head?.map
        fun it => it.memorization_card) = some (some false) ∧
    ((VocaCardDataset.fromLines ("vocab.txt").data unseenLines).map fun d =>
      (VocaSession.new [d] FilterMode.All false none memOffConfig sampleNow).next_card
        true hugeLadder sampleNow) = some none := by
  refine ⟨by decide, by decide, by decide, by decide, by decide, by decide⟩

theorem listGetSetSame {α : Type} : ∀ (l : List α) (i : Nat) (a : α),
    i < l.length → (l.set i a).get? i = some a := by
  intro l
  induction l with
  | nil => intro i a h; simp at h
  | cons x xs ih =>
    intro i a h
    cases i with
    | zero => rfl
    | succ k => simpa using ih k a (by simpa using h)

theorem listGetSetOther {α : Type} : ∀ (l : List α) (i k : Nat) (a : α),
    i ≠ k → (l.set i a).get? k = l.get? k := by
  intro l
  induction l with
  | nil => intro i k a _; simp
  | cons x xs ih =>
    intro i k a h
    cases i with
    | zero =>
      cases k with
      | zero => exact absurd rfl h
      | succ n => rfl
    | succ m =>
      cases k with
      | zero => rfl
      | succ n => simpa using ih m n a (fun he => h (by rw [he]))

theorem listMemSet {α : Type} : ∀ (l : List α) (i : Nat) (a x : α),
    x ∈ l.set i a → x ∈ l ∨ x = a := by
  intro l
  induction l with
  | nil => intro i a x h; simp at h
  | cons y ys ih =>
    intro i a x h
    cases i with
    | zero =>
      rcases List.mem_cons.mp h with rfl | h'
      · exact Or.inr rfl
      · exact Or.inl (List.mem_cons_of_mem _ h')
    | succ m =>
      rcases List.mem_cons.mp h with rfl | h'
      · exact Or.inl (List.mem_cons_self ..)
      · rcases ih m a x h' with h2 | h2
        · exact Or.inl (List.mem_cons_of_mem _ h2)
        · exact Or.inr h2

theorem lt_length_of_get?_eq_some {α : Type} {l : List α} {i : Nat} {a : α}
    (h : l.get? i = some a) : i < l.length := by
  by_contra hge
  rw [List.get?_eq_none.mpr (Nat.le_of_not_lt hge)] at h
  exact Option.noConfusion h

theorem getCard_setCard_self (ds : List VocaCardDataset) (i j : Nat) (c : Vocab)
    (h : (getCard ds i j).isSome = true) :
    getCard (setCard ds i j c) i j = some c := by
  unfold getCard at h
  cases hd : ds.get? i with
  | none => rw [hd] at h; exact absurd h (by simp only [Option.none_bind, Option.isSome_none]; simp)
  | some d =>
    rw [hd, Option.some_bind] at h
    cases hcj : d.cards.get? j with
    | none =>
      rw [hcj] at h
      exact absurd h (by simp only [Option.isSome_none]; simp)
    | some c0 =>
      unfold setCard getCard
      rw [hd, listGetSetSame ds i _ (lt_length_of_get?_eq_some hd), Option.some_bind]
      exact listGetSetSame d.cards j c (lt_length_of_get?_eq_some hcj)

theorem getCard_setCard_isSome (ds : List VocaCardDataset) (i j : Nat) (c : Vocab)
    (a b : Nat) (h : (getCard ds i j).isSome = true) :
    (getCard (setCard ds i j c) a b).isSome = (getCard ds a b).isSome := by
  unfold getCard at h
  cases hd : ds.get? i with
  | none => rw [hd] at h; exact absurd h (by simp only [Option.none_bind, Option.isSome_none]; simp)
  | some d =>
    rw [hd, Option.some_bind] at h
    unfold setCard getCard
    rw [hd]
    by_cases hai : i = a
    · subst hai
      rw [listGetSetSame ds i _ (lt_length_of_get?_eq_some hd), hd, Option.some_bind,
        Option.some_bind]
      by_cases hbj : j = b
      · subst hbj
        cases hcj : d.cards.get? j with
        | none =>
          rw [hcj] at h
          exact absurd h (by simp only [Option.isSome_none]; simp)
        | some c0 =>
          show ((d.cards.set j c).get? j).isSome = (some c0).isSome
          rw [listGetSetSame d.cards j c (lt_length_of_get?_eq_some hcj)]
          rfl
      · show ((d.cards.set j c).get? b).isSome = (d.cards.get? b).isSome
        rw [listGetSetOther d.cards j b c hbj]
    · rw [listGetSetOther ds i a _ hai]

/-- Claim C10: `update_metadata` leaves the opposite direction untouched
when metadata exists, and when it does not, the created record gives the
opposite direction the defaults deck 0 and due date `UNIX_EPOCH` — so
grading one direction of a never-reviewed card (any graded `next_card` on
a card without metadata) makes the opposite direction immediately due for
any current time after the epoch. -/
theorem update_metadata_opposite_direction :
    (∀ (v : Vocab) (m : VocabMetadata) (deck : Nat) (due : NDT),
      v.metadata = some m →
        (v.update_metadata deck due true).metadata =
          some { m with deck_reverse := deck, due_date_reverse := due } ∧
        (v.update_metadata deck due false).metadata =
          some { m with deck := deck, due_date := due }) ∧
    (∀ (v : Vocab) (deck : Nat) (due : NDT),
      v.metadata = none →
        (v.update_metadata deck due true).metadata = some ⟨epochNDT, 0, due, deck⟩ ∧
        (v.update_metadata deck due false).metadata = some ⟨due, deck, epochNDT, 0⟩) ∧
    (∀ (s : VocaSession) (item : VocabItem) (rest : List VocabItem) (card : Vocab)
        (cfg : DeckConfig) (now now' : NDT) (b : Bool) (s' : VocaSession),
      s.queue = item :: rest → item.memorization_card = false →
      getCard s.datasets item.dataset item.card = some card →
      card.metadata = none →
      1 ≤ cfg.deck_intervals.length → cfg.deck_intervals.length ≤ 255 →
      s.next_card b cfg now = some s' →
      ltNDT epochNDT now' = true →
      ∃ card', getCard s'.datasets item.dataset item.card = some card' ∧
        card'.is_due (!item.reverse) FilterMode.Normal now' = true) := by
  refine ⟨fun v m deck due hm => ?_, fun v deck due hm => ?_,
    fun s item rest card cfg now now' b s' hq hmem hc hmeta hN1 hN2 hstep hlt => ?_⟩
  · constructor <;> simp [Vocab.update_metadata, hm]
  · constructor <;> simp [Vocab.update_metadata, hm, VocabMetadata.default]
  · have hd : (card.get_deck item.reverse).getD 0 < cfg.deck_intervals.length := by
      simp [Vocab.get_deck, hmeta]
      omega
    obtain ⟨_, dur, _, heq⟩ :=
      next_card_graded_eq s item rest cfg now b card _ hq hmem hc hN1 hN2 hd rfl
    rw [heq] at hstep
    cases haddur : addDuration now dur with
    | none =>
      rw [haddur] at hstep
      exact absurd hstep (by simp)
    | some due =>
      rw [haddur] at hstep
      obtain rfl := Option.some.inj hstep
      refine ⟨_, getCard_setCard_self s.datasets item.dataset item.card _
        (by rw [hc]; rfl), ?_⟩
      cases hr : item.reverse <;>
        simp [Vocab.update_metadata, Vocab.is_due, hmeta, hr, hlt, VocabMetadata.default]

/-- Claim C10, witness: a concrete graded pass over a metadata-free card
leaves the opposite direction due. -/
theorem update_metadata_opposite_direction_witness :
    (VocabMetadata.default.deck = 0 ∧ VocabMetadata.default.due_date = epochNDT) ∧
    ∃ card', getCard (((⟨[⟨[⟨VocabWord.from_str ("a").data, VocabWord.from_str ("b").data, none⟩],
          ("vocab.txt").data, ("en").data, ("de").data⟩],
        [⟨0, 0, false, false⟩], false, 1⟩ : VocaSession).next_card true ladder9
          sampleNow).getD oneItemSession).datasets 0 0 = some card' ∧
      card'.is_due (!false) FilterMode.Normal sampleNow = true := by
  refine ⟨⟨rfl, rfl⟩, ?_⟩
  exact update_metadata_opposite_direction.2.2
    ⟨[⟨[⟨VocabWord.from_str ("a").data, VocabWord.from_str ("b").data, none⟩],
        ("vocab.txt").data, ("en").data, ("de").data⟩], [⟨0, 0, false, false⟩], false, 1⟩
    ⟨0, 0, false, false⟩ [] _ ladder9 sampleNow sampleNow true _ rfl rfl rfl rfl
    (by decide) (by decide) (by decide) (by decide)

/-- Claim C4 (amended: the default due timestamps are the Unix epoch, not
the minimum representable instant — see the counterexample): a
memorization front item is removed without re-enqueuing by `next_card`
(for either answer) and by `skip_card`, and in all cases the card's
metadata becomes the default record — both decks 0, both due timestamps
`UNIX_EPOCH` — with `has_changes` set. -/
theorem memorization_item_retired (s : VocaSession) (item : VocabItem)
    (rest : List VocabItem) (card : Vocab) (cfg : DeckConfig) (now : NDT)
    (hq : s.queue = item :: rest) (hm : item.memorization_card = true)
    (hc : getCard s.datasets item.dataset item.card = some card) :
    (∀ b : Bool, s.next_card b cfg now = some (⟨setCard s.datasets item.dataset item.card
      { card with metadata := some VocabMetadata.default }, rest, true, s.total_due⟩ :
        VocaSession)) ∧
    s.skip_card = some (⟨setCard s.datasets item.dataset item.card
      { card with metadata := some VocabMetadata.default }, rest, true, s.total_due⟩ :
        VocaSession) ∧
    VocabMetadata.default.deck = 0 ∧ VocabMetadata.default.deck_reverse = 0 ∧
    VocabMetadata.default.due_date = epochNDT ∧
    VocabMetadata.default.due_date_reverse = epochNDT := by
  refine ⟨fun b => ?_, ?_, rfl, rfl, rfl, rfl⟩
  · simp only [VocaSession.next_card, hq, hc, hm, if_true]
  · simp only [VocaSession.skip_card, hq, hm, Bool.not_true, Bool.false_eq_true, if_false, hc]

/-- A card that has never been reviewed. -/
def plainCard : Vocab :=
  ⟨VocabWord.from_str ("a").data, VocabWord.from_str ("b").data, none⟩

/-- A session whose front item is a memorization exposure of a card with
no metadata. -/
def memorizationSession : VocaSession :=
  ⟨[⟨[plainCard], ("vocab.txt").data, ("en").data, ("de").data⟩],
    [⟨0, 0, false, true⟩], false, 1⟩

/-- Claim C4, witness: the retirement on a concrete memorization item. -/
theorem memorization_item_retired_witness :
    (∀ b : Bool, memorizationSession.next_card b ladder9 sampleNow =
      some (⟨setCard memorizationSession.datasets 0 0
        { plainCard with metadata := some VocabMetadata.default },
        [], true, memorizationSession.total_due⟩ : VocaSession)) ∧
    memorizationSession.skip_card =
      some (⟨setCard memorizationSession.datasets 0 0
        { plainCard with metadata := some VocabMetadata.default },
        [], true, memorizationSession.total_due⟩ : VocaSession) ∧
    VocabMetadata.default.deck = 0 ∧ VocabMetadata.default.deck_reverse = 0 ∧
    VocabMetadata.default.due_date = epochNDT ∧
    VocabMetadata.default.due_date_reverse = epochNDT :=
  memorization_item_retired memorizationSession ⟨0, 0, false, true⟩ [] plainCard ladder9
    sampleNow rfl rfl rfl

/-- Claim C4, counterexample: after a memorization exposure the card's due
timestamps are the Unix epoch, which is not the minimum representable
instant — chrono represents 1969-12-31 23:59:59, which is strictly
earlier.  (The second conjunct evaluates the code on a concrete session;
the last two refute the "minimum representable instant" wording.) -/
theorem memorization_item_retired_counterexample :
    ((memorizationSession.next_card true ladder9 sampleNow).map fun s =>
      (getCard s.datasets 0 0).map Vocab.metadata) =
        some (some (some (some VocabMetadata.default))) ∧
    VocabMetadata.default.due_date = epochNDT ∧
    chronoRepresentable ⟨1969, 12, 31, 23, 59, 59⟩ = true ∧
    ltNDT ⟨1969, 12, 31, 23, 59, 59⟩ VocabMetadata.default.due_date = true := by
  refine ⟨by decide, rfl, by decide, by decide⟩

theorem digCh_isDigit : ∀ k : Nat, k < 10 → (digCh k).isDigit = true := by decide

theorem digVal_digCh : ∀ k : Nat, k < 10 → digVal (digCh k) = k := by decide

set_option maxRecDepth 10000 in
theorem parseU8_renderU8 : ∀ n : Nat, n < 256 → parseU8 (renderU8 n) = some n := by decide

theorem parseDate_renderDate (t : NDT) (hv : validNDT t = true) (h0 : 0 ≤ t.year)
    (h9 : t.year ≤ 9999) : parseDate (renderDate t) = some t := by
  obtain ⟨y, mo, d, h, mi, s⟩ := t
  have hdm : daysInMonth y mo ≤ 31 := by
    unfold daysInMonth
    repeat' split
    all_goals omega
  have hb : 1 ≤ mo ∧ mo ≤ 12 ∧ 1 ≤ d ∧ d ≤ 31 ∧ h ≤ 23 ∧ mi ≤ 59 ∧ s ≤ 59 := by
    simp only [validNDT] at hv
    simp at hv
    omega
  simp only [renderDate, pad4, pad2, List.cons_append, List.nil_append, parseDate]
  have hg1 := digCh_isDigit (y.toNat / 1000 % 10) (Nat.mod_lt _ (by omega))
  have hg2 := digCh_isDigit (y.toNat / 100 % 10) (Nat.mod_lt _ (by omega))
  have hg3 := digCh_isDigit (y.toNat / 10 % 10) (Nat.mod_lt _ (by omega))
  have hg4 := digCh_isDigit (y.toNat % 10) (Nat.mod_lt _ (by omega))
  have hg5 := digCh_isDigit (mo / 10 % 10) (Nat.mod_lt _ (by omega))
  have hg6 := digCh_isDigit (mo % 10) (Nat.mod_lt _ (by omega))
  have hg7 := digCh_isDigit (d / 10 % 10) (Nat.mod_lt _ (by omega))
  have hg8 := digCh_isDigit (d % 10) (Nat.mod_lt _ (by omega))
  have hg9 := digCh_isDigit (h / 10 % 10) (Nat.mod_lt _ (by omega))
  have hg10 := digCh_isDigit (h % 10) (Nat.mod_lt _ (by omega))
  have hg11 := digCh_isDigit (mi / 10 % 10) (Nat.mod_lt _ (by omega))
  have hg12 := digCh_isDigit (mi % 10) (Nat.mod_lt _ (by omega))
  have hg13 := digCh_isDigit (s / 10 % 10) (Nat.mod_lt _ (by omega))
  have hg14 := digCh_isDigit (s % 10) (Nat.mod_lt _ (by omega))
  simp only [hg1, hg2, hg3, hg4, hg5, hg6, hg7, hg8, hg9, hg10, hg11, hg12, hg13, hg14,
    Bool.true_and, Bool.and_true, decide_True, decide_true_eq_true, if_true]
  rw [digVal_digCh (y.toNat / 1000 % 10) (Nat.mod_lt _ (by omega)),
    digVal_digCh (y.toNat / 100 % 10) (Nat.mod_lt _ (by omega)),
    digVal_digCh (y.toNat / 10 % 10) (Nat.mod_lt _ (by omega)),
    digVal_digCh (y.toNat % 10) (Nat.mod_lt _ (by omega)),
    digVal_digCh (mo / 10 % 10) (Nat.mod_lt _ (by omega)),
    digVal_digCh (mo % 10) (Nat.mod_lt _ (by omega)),
    digVal_digCh (d / 10 % 10) (Nat.mod_lt _ (by omega)),
    digVal_digCh (d % 10) (Nat.mod_lt _ (by omega)),
    digVal_digCh (h / 10 % 10) (Nat.mod_lt _ (by omega)),
    digVal_digCh (h % 10) (Nat.mod_lt _ (by omega)),
    digVal_digCh (mi / 10 % 10) (Nat.mod_lt _ (by omega)),
    digVal_digCh (mi % 10) (Nat.mod_lt _ (by omega)),
    digVal_digCh (s / 10 % 10) (Nat.mod_lt _ (by omega)),
    digVal_digCh (s % 10) (Nat.mod_lt _ (by omega))]
  have h0' : (0 : Int) ≤ y := h0
  have h9' : y ≤ (9999 : Int) := h9
  have ey : ((((y.toNat / 1000 % 10 : Nat) : Int) * 10 + ((y.toNat / 100 % 10 : Nat) : Int)) * 10 +
      ((y.toNat / 10 % 10 : Nat) : Int)) * 10 + ((y.toNat % 10 : Nat) : Int) = y := by omega
  have emo : mo / 10 % 10 * 10 + mo % 10 = mo := by omega
  have ed : d / 10 % 10 * 10 + d % 10 = d := by omega
  have eh : h / 10 % 10 * 10 + h % 10 = h := by omega
  have emi : mi / 10 % 10 * 10 + mi % 10 = mi := by omega
  have es : s / 10 % 10 * 10 + s % 10 = s := by omega
  rw [ey, emo, ed, eh, emi, es, if_pos hv]

/-- A field in the canonical form `u8` formatting produces. -/
def canonicalU8 (f : Str) : Prop := ∃ n, n < 256 ∧ f = renderU8 n

/-- A field in the canonical form the timestamp formatter produces
(a valid date with a four-digit year). -/
def canonicalDate (f : Str) : Prop :=
  ∃ t, validNDT t = true ∧ 0 ≤ t.year ∧ t.year ≤ 9999 ∧ f = renderDate t

/-- A data line whose numeric and timestamp fields are canonically
formatted (exactly two or exactly six tab-separated fields). -/
def CanonicalLine (l : Str) : Prop :=
  match splitChar '\t' l with
  | [_, _] => True
  | [_, _, f3, f4, f5, f6] =>
    canonicalU8 f3 ∧ canonicalDate f4 ∧ canonicalU8 f5 ∧ canonicalDate f6
  | _ => False

theorem saveLine_from_line (l : Str) (c : Vocab) (hcanon : CanonicalLine l)
    (hp : Vocab.from_line l = some c) : c.saveLine = l := by
  unfold Vocab.from_line at hp
  unfold CanonicalLine at hcanon
  rw [← joinChar_splitChar '\t' l]
  rcases hsp : splitChar '\t' l with _ | ⟨a, _ | ⟨b, _ | ⟨f3, _ | ⟨f4, _ | ⟨f5, _ | ⟨f6, _ | ⟨f7, ps⟩⟩⟩⟩⟩⟩⟩ <;>
    rw [hsp] at hp hcanon
  · exact absurd hp (by simp)
  · exact absurd hp (by simp)
  · obtain rfl := Option.some.inj hp
    rfl
  · exact absurd hp (by simp)
  · exact absurd hp (by simp)
  · exact absurd hp (by simp)
  · obtain ⟨⟨n3, hn3, rfl⟩, ⟨t4, hv4, h04, h94, rfl⟩, ⟨n5, hn5, rfl⟩,
      ⟨t6, hv6, h06, h96, rfl⟩⟩ := hcanon
    simp only [parseU8_renderU8 n3 hn3, parseDate_renderDate t4 hv4 h04 h94,
      parseU8_renderU8 n5 hn5, parseDate_renderDate t6 hv6 h06 h96,
      Option.bind_eq_bind, Option.some_bind] at hp
    obtain rfl := Option.some.inj hp
    rfl
  · exact hcanon.elim

theorem map_saveLine_parseCardLines (lines : List Str) (cards : List Vocab)
    (h : parseCardLines lines = some cards)
    (hc : ∀ l ∈ lines, (trimStr l).isEmpty = false → CanonicalLine l) :
    cards.map Vocab.saveLine = lines.filter fun l => !(trimStr l).isEmpty := by
  induction lines generalizing cards with
  | nil =>
    unfold parseCardLines at h
    obtain rfl := Option.some.inj h
    rfl
  | cons l ls ih =>
    unfold parseCardLines at h
    by_cases hb : (trimStr l).isEmpty = true
    · rw [if_pos hb] at h
      rw [List.filter_cons_of_neg (by simp [hb])]
      exact ih cards h fun x hx hbx => hc x (List.mem_cons_of_mem _ hx) hbx
    · rw [if_neg hb] at h
      cases hfl : Vocab.from_line l with
      | none => rw [hfl] at h; exact absurd h (by simp)
      | some c =>
        rw [hfl] at h
        cases hpl : parseCardLines ls with
        | none => rw [hpl] at h; exact absurd h (by simp)
        | some cs =>
          rw [hpl] at h
          simp only [Option.bind_eq_bind, Option.some_bind] at h
          obtain rfl := Option.some.inj h
          rw [List.filter_cons_of_pos (by simp [hb])]
          rw [List.map_cons,
            saveLine_from_line l c (hc l (List.mem_cons_self ..) (by simpa using hb)) hfl,
            ih cs hpl fun x hx hbx => hc x (List.mem_cons_of_mem _ hx) hbx]

/-- Claim C5 (amended: the round trip holds for datasets whose metadata
lines are canonically formatted — deck fields written without sign or
leading zeros and timestamps zero-padded, i.e. exactly the form `save`
itself emits, with exactly two or six fields per line; see the
counterexample for a parsed but non-canonical file): saving a freshly
loaded dataset writes the header `lang_a TAB lang_b` followed, in load
order, by each card's original non-blank line byte for byte. -/
theorem dataset_save_round_trip (path header : Str) (rest : List Str) (d : VocaCardDataset)
    (hparse : VocaCardDataset.fromLines path (header :: rest) = some d)
    (hcanon : ∀ l ∈ rest, (trimStr l).isEmpty = false → CanonicalLine l) :
    d.saveLines = (d.lang_a ++ '\t' :: d.lang_b) :: rest.filter fun l => !(trimStr l).isEmpty := by
  have hparse' : (match splitChar '\t' header with
      | [] => none
      | [_] => none
      | lang_a :: lang_b :: _ => do
          let cards ← parseCardLines rest
          some (⟨cards, path, lang_a, lang_b⟩ : VocaCardDataset)) = some d := hparse
  clear hparse
  rcases hsp : splitChar '\t' header with _ | ⟨la, _ | ⟨lb, ps⟩⟩ <;> rw [hsp] at hparse'
  · exact absurd hparse' (by simp)
  · exact absurd hparse' (by simp)
  · cases hpl : parseCardLines rest with
    | none => rw [hpl] at hparse'; exact absurd hparse' (by simp)
    | some cards =>
      rw [hpl] at hparse'
      simp only [Option.bind_eq_bind, Option.some_bind] at hparse'
      obtain rfl := Option.some.inj hparse'
      unfold VocaCardDataset.saveLines
      rw [map_saveLine_parseCardLines rest cards hpl hcanon]

/-- A parsed dataset file whose deck field has a leading zero. -/
def leadingZeroLines : List Str :=
  [("en\tde").data, ("a\tb\t07\t2023-10-01 12:00:00\t0\t2023-10-01 12:00:00").data]

/-- Claim C5, counterexample: the parser accepts the deck field `07`
(`u8::from_str` allows leading zeros) but `save` re-renders it as `7`, so
the written line is not byte-for-byte the loaded one. -/
theorem dataset_save_round_trip_counterexample :
    (VocaCardDataset.fromLines ("vocab.txt").data leadingZeroLines).isSome = true ∧
    (VocaCardDataset.fromLines ("vocab.txt").data leadingZeroLines).map
        VocaCardDataset.saveLines ≠ some leadingZeroLines ∧
    (VocaCardDataset.fromLines ("vocab.txt").data leadingZeroLines).map
        VocaCardDataset.saveLines =
      some [("en\tde").data, ("a\tb\t7\t2023-10-01 12:00:00\t0\t2023-10-01 12:00:00").data] := by
  refine ⟨by decide, by decide, by decide⟩

/-- The card parsed from the canonical line used in the C5 witness. -/
def canonicalCard : Vocab :=
  ⟨VocabWord.from_str ("a").data, VocabWord.from_str ("b").data,
    some ⟨⟨2023, 10, 1, 12, 0, 0⟩, 7, ⟨2023, 10, 1, 12, 0, 0⟩, 0⟩⟩

def canonicalDataset : VocaCardDataset :=
  ⟨[canonicalCard], ("vocab.txt").data, ("en").data, ("de").data⟩

/-- Claim C5, witness: the round trip on a concrete canonical file. -/
theorem dataset_save_round_trip_witness :
    canonicalDataset.saveLines =
      (canonicalDataset.lang_a ++ '\t' :: canonicalDataset.lang_b) ::
        ([("a\tb\t7\t2023-10-01 12:00:00\t0\t2023-10-01 12:00:00").data].filter
          fun l => !(trimStr l).isEmpty) :=
  dataset_save_round_trip ("vocab.txt").data ("en\tde").data
    [("a\tb\t7\t2023-10-01 12:00:00\t0\t2023-10-01 12:00:00").data] canonicalDataset
    (by decide)
    (by
      intro l hl _
      rw [List.mem_singleton] at hl
      subst hl
      show canonicalU8 (("7").data) ∧ canonicalDate (("2023-10-01 12:00:00").data) ∧
        canonicalU8 (("0").data) ∧ canonicalDate (("2023-10-01 12:00:00").data)
      exact ⟨⟨7, by omega, by decide⟩,
        ⟨⟨2023, 10, 1, 12, 0, 0⟩, by decide, by decide, by decide, by decide⟩,
        ⟨0, by omega, by decide⟩,
        ⟨⟨2023, 10, 1, 12, 0, 0⟩, by decide, by decide, by decide, by decide⟩⟩)

/-- The distinct-card references the partitioning loop counts before the
limit stops it. -/
def usedCards (filter_mode : FilterMode) (current_date : NDT) (limit : Option Nat) :
    List ((Nat × Nat) × Vocab) → Nat → List (Nat × Nat)
  | [], _ => []
  | (ij, card) :: rest, num_cards =>
    if limitHit limit num_cards then []
    else if card.is_due false filter_mode current_date || card.is_due true filter_mode current_date then
      ij :: usedCards filter_mode current_date limit rest (num_cards + 1)
    else usedCards filter_mode current_date limit rest num_cards

/-- All items of the three sub-queues. -/
def q3 (t : List VocabItem × List VocabItem × List VocabItem) : List VocabItem :=
  t.1 ++ t.2.1 ++ t.2.2

theorem buildQueues_cons (mode : FilterMode) (memCfg : MemorizationConfig) (now : NDT)
    (limit : Option Nat) (ij : Nat × Nat) (card : Vocab)
    (rest : List ((Nat × Nat) × Vocab)) (n : Nat) :
    buildQueues mode memCfg now limit ((ij, card) :: rest) n =
      if limitHit limit n then ([], [], [])
      else
        ((if card.metadata.isNone && memCfg.do_memorization_round &&
              (card.is_due false mode now || card.is_due true mode now) then
            (⟨ij.1, ij.2, memCfg.memorization_reversed, true⟩ : VocabItem) ::
              (buildQueues mode memCfg now limit rest
                (if card.is_due false mode now || card.is_due true mode now then n + 1 else n)).1
          else (buildQueues mode memCfg now limit rest
            (if card.is_due false mode now || card.is_due true mode now then n + 1 else n)).1),
         (if card.is_due false mode now then
            (⟨ij.1, ij.2, false, false⟩ : VocabItem) ::
              (buildQueues mode memCfg now limit rest
                (if card.is_due false mode now || card.is_due true mode now then n + 1 else n)).2.1
          else (buildQueues mode memCfg now limit rest
            (if card.is_due false mode now || card.is_due true mode now then n + 1 else n)).2.1),
         (if card.is_due true mode now then
            (⟨ij.1, ij.2, true, false⟩ : VocabItem) ::
              (buildQueues mode memCfg now limit rest
                (if card.is_due false mode now || card.is_due true mode now then n + 1 else n)).2.2
          else (buildQueues mode memCfg now limit rest
            (if card.is_due false mode now || card.is_due true mode now then n + 1 else n)).2.2)) := rfl

theorem usedCards_length (mode : FilterMode) (now : NDT) (L : Nat) :
    ∀ (entries : List ((Nat × Nat) × Vocab)) (n : Nat),
      (usedCards mode now (some L) entries n).length ≤ L - n := by
  intro entries
  induction entries with
  | nil => intro n; simp [usedCards]
  | cons e rest ih =>
    intro n
    obtain ⟨ij, card⟩ := e
    unfold usedCards
    by_cases hl : limitHit (some L) n = true
    · rw [if_pos hl]
      simp
    · rw [if_neg hl]
      have hn : n < L := by
        simp only [limitHit, decide_eq_true_eq] at hl
        omega
      by_cases hu : (card.is_due false mode now || card.is_due true mode now) = true
      · rw [if_pos hu]
        have := ih (n + 1)
        simp only [List.length_cons]
        omega
      · rw [if_neg hu]
        exact (ih n).trans (by omega)

theorem buildQueues_refs_used (mode : FilterMode) (memCfg : MemorizationConfig) (now : NDT)
    (limit : Option Nat) :
    ∀ (entries : List ((Nat × Nat) × Vocab)) (n : Nat) (it : VocabItem),
      it ∈ q3 (buildQueues mode memCfg now limit entries n) →
      (it.dataset, it.card) ∈ usedCards mode now limit entries n := by
  intro entries
  induction entries with
  | nil =>
    intro n it h
    simp [buildQueues, q3] at h
  | cons e rest ih =>
    intro n it h
    obtain ⟨ij, card⟩ := e
    rw [buildQueues_cons] at h
    unfold usedCards
    by_cases hl : limitHit limit n = true
    · rw [if_pos hl] at h
      simp [q3] at h
    · rw [if_neg hl] at h
      rw [if_neg hl]
      by_cases hu : (card.is_due false mode now || card.is_due true mode now) = true
      · rw [if_pos hu]
        simp only [hu, if_true, Bool.and_true] at h
        simp only [q3, List.mem_append] at h
        rcases h with (hm | hs) | hr
        · by_cases hmc : (card.metadata.isNone && memCfg.do_memorization_round) = true
          · rw [if_pos hmc] at hm
            rcases List.mem_cons.mp hm with rfl | hm'
            · exact List.mem_cons_self ..
            · exact List.mem_cons_of_mem _ (ih (n + 1) it (by simp [q3, List.mem_append, hm']))
          · rw [if_neg hmc] at hm
            exact List.mem_cons_of_mem _ (ih (n + 1) it (by simp [q3, List.mem_append, hm]))
        · by_cases hF : card.is_due false mode now = true
          · rw [if_pos hF] at hs
            rcases List.mem_cons.mp hs with rfl | hs'
            · exact List.mem_cons_self ..
            · exact List.mem_cons_of_mem _ (ih (n + 1) it (by simp [q3, List.mem_append, hs']))
          · rw [if_neg hF] at hs
            exact List.mem_cons_of_mem _ (ih (n + 1) it (by simp [q3, List.mem_append, hs]))
        · by_cases hR : card.is_due true mode now = true
          · rw [if_pos hR] at hr
            rcases List.mem_cons.mp hr with rfl | hr'
            · exact List.mem_cons_self ..
            · exact List.mem_cons_of_mem _ (ih (n + 1) it (by simp [q3, List.mem_append, hr']))
          · rw [if_neg hR] at hr
            exact List.mem_cons_of_mem _ (ih (n + 1) it (by simp [q3, List.mem_append, hr]))
      · rw [if_neg hu]
        have hor : (card.is_due false mode now || card.is_due true mode now) = false := by
          simpa using hu
        have hF : card.is_due false mode now = false := by
          rcases Bool.eq_false_or_eq_true (card.is_due false mode now) with h' | h'
          · exact absurd (by simp [h']) hu
          · exact h'
        have hR : card.is_due true mode now = false := by
          rcases Bool.eq_false_or_eq_true (card.is_due true mode now) with h' | h'
          · exact absurd (by simp [h']) hu
          · exact h'
        have hmc : (card.metadata.isNone && memCfg.do_memorization_round &&
            (card.is_due false mode now || card.is_due true mode now)) = false := by
          simp [hF, hR]
        rw [hmc, hor, hF, hR] at h
        simp only [Bool.false_eq_true, if_false] at h
        exact ih n it h

theorem listMemIfCons {α : Type} (c : Prop) [Decidable c] (a : α) (t : List α) (x : α)
    (hx : x ∈ t) : x ∈ (if c then a :: t else t) := by
  split
  · exact List.mem_cons_of_mem _ hx
  · exact hx

theorem q3_lift (condM condF condR : Prop) [Decidable condM] [Decidable condF]
    [Decidable condR] (am af ar : VocabItem)
    (B : List VocabItem × List VocabItem × List VocabItem) (x : VocabItem)
    (hx : x ∈ q3 B) :
    x ∈ q3 (if condM then am :: B.1 else B.1,
            if condF then af :: B.2.1 else B.2.1,
            if condR then ar :: B.2.2 else B.2.2) := by
  simp only [q3, List.mem_append] at hx ⊢
  rcases hx with (h | h) | h
  · exact Or.inl (Or.inl (listMemIfCons _ _ _ _ h))
  · exact Or.inl (Or.inr (listMemIfCons _ _ _ _ h))
  · exact Or.inr (listMemIfCons _ _ _ _ h)

theorem buildQueues_complete (mode : FilterMode) (memCfg : MemorizationConfig) (now : NDT)
    (limit : Option Nat) (ds : List VocaCardDataset) :
    ∀ (entries : List ((Nat × Nat) × Vocab))
      (hco : ∀ p ∈ entries, getCard ds p.1.1 p.1.2 = some p.2) (n : Nat) (it : VocabItem),
      it ∈ q3 (buildQueues mode memCfg now limit entries n) →
      ∀ c, getCard ds it.dataset it.card = some c →
        (c.is_due false mode now = true →
          (⟨it.dataset, it.card, false, false⟩ : VocabItem) ∈
            q3 (buildQueues mode memCfg now limit entries n)) ∧
        (c.is_due true mode now = true →
          (⟨it.dataset, it.card, true, false⟩ : VocabItem) ∈
            q3 (buildQueues mode memCfg now limit entries n)) ∧
        (c.metadata.isNone = true → memCfg.do_memorization_round = true →
          (⟨it.dataset, it.card, memCfg.memorization_reversed, true⟩ : VocabItem) ∈
            q3 (buildQueues mode memCfg now limit entries n)) := by
  intro entries
  induction entries with
  | nil =>
    intro _ n it h
    simp [buildQueues, q3] at h
  | cons e rest ih =>
    obtain ⟨ij, card⟩ := e
    intro hco n it hmem c hc
    have hcard : getCard ds ij.1 ij.2 = some card := hco _ (List.mem_cons_self ..)
    have hcoR : ∀ p ∈ rest, getCard ds p.1.1 p.1.2 = some p.2 :=
      fun p hp => hco p (List.mem_cons_of_mem _ hp)
    rw [buildQueues_cons] at hmem ⊢
    by_cases hl : limitHit limit n = true
    · rw [if_pos hl] at hmem
      simp [q3] at hmem
    · rw [if_neg hl] at hmem ⊢
      simp only [q3, List.mem_append] at hmem
      rcases hmem with (hm | hs) | hr
      · by_cases hmc : (card.metadata.isNone && memCfg.do_memorization_round &&
            (card.is_due false mode now || card.is_due true mode now)) = true
        · rw [if_pos hmc] at hm
          rcases List.mem_cons.mp hm with rfl | hm'
          · obtain rfl : card = c := Option.some.inj (hcard.symm.trans hc)
            have hused : (card.is_due false mode now || card.is_due true mode now) = true := by
              simp only [Bool.and_eq_true] at hmc
              exact hmc.2
            refine ⟨fun hF => ?_, fun hR => ?_, fun _ _ => ?_⟩
            · simp only [q3, List.mem_append]
              exact Or.inl (Or.inr (by rw [if_pos hF]; exact List.mem_cons_self ..))
            · simp only [q3, List.mem_append]
              exact Or.inr (by rw [if_pos hR]; exact List.mem_cons_self ..)
            · simp only [q3, List.mem_append]
              exact Or.inl (Or.inl (by rw [if_pos hmc]; exact List.mem_cons_self ..))
          · obtain ⟨g1, g2, g3⟩ := ih hcoR _ it (by
              simp only [q3, List.mem_append]; exact Or.inl (Or.inl hm')) c hc
            exact ⟨fun hF => q3_lift _ _ _ _ _ _ _ _ (g1 hF),
              fun hR => q3_lift _ _ _ _ _ _ _ _ (g2 hR),
              fun h1 h2 => q3_lift _ _ _ _ _ _ _ _ (g3 h1 h2)⟩
        · rw [if_neg hmc] at hm
          obtain ⟨g1, g2, g3⟩ := ih hcoR _ it (by
            simp only [q3, List.mem_append]; exact Or.inl (Or.inl hm)) c hc
          exact ⟨fun hF => q3_lift _ _ _ _ _ _ _ _ (g1 hF),
            fun hR => q3_lift _ _ _ _ _ _ _ _ (g2 hR),
            fun h1 h2 => q3_lift _ _ _ _ _ _ _ _ (g3 h1 h2)⟩
      · by_cases hF0 : card.is_due false mode now = true
        · rw [if_pos hF0] at hs
          rcases List.mem_cons.mp hs with rfl | hs'
          · obtain rfl : card = c := Option.some.inj (hcard.symm.trans hc)
            refine ⟨fun hF => ?_, fun hR => ?_, fun h1 h2 => ?_⟩
            · simp only [q3, List.mem_append]
              exact Or.inl (Or.inr (by rw [if_pos hF]; exact List.mem_cons_self ..))
            · simp only [q3, List.mem_append]
              exact Or.inr (by rw [if_pos hR]; exact List.mem_cons_self ..)
            · simp only [q3, List.mem_append]
              refine Or.inl (Or.inl (by
                rw [if_pos (by simp [h1, h2, hF0])]
                exact List.mem_cons_self ..))
          · obtain ⟨g1, g2, g3⟩ := ih hcoR _ it (by
              simp only [q3, List.mem_append]; exact Or.inl (Or.inr hs')) c hc
            exact ⟨fun hF => q3_lift _ _ _ _ _ _ _ _ (g1 hF),
              fun hR => q3_lift _ _ _ _ _ _ _ _ (g2 hR),
              fun h1 h2 => q3_lift _ _ _ _ _ _ _ _ (g3 h1 h2)⟩
        · rw [if_neg hF0] at hs
          obtain ⟨g1, g2, g3⟩ := ih hcoR _ it (by
            simp only [q3, List.mem_append]; exact Or.inl (Or.inr hs)) c hc
          exact ⟨fun hF => q3_lift _ _ _ _ _ _ _ _ (g1 hF),
            fun hR => q3_lift _ _ _ _ _ _ _ _ (g2 hR),
            fun h1 h2 => q3_lift _ _ _ _ _ _ _ _ (g3 h1 h2)⟩
      · by_cases hR0 : card.is_due true mode now = true
        · rw [if_pos hR0] at hr
          rcases List.mem_cons.mp hr with rfl | hr'
          · obtain rfl : card = c := Option.some.inj (hcard.symm.trans hc)
            refine ⟨fun hF => ?_, fun hR => ?_, fun h1 h2 => ?_⟩
            · simp only [q3, List.mem_append]
              exact Or.inl (Or.inr (by rw [if_pos hF]; exact List.mem_cons_self ..))
            · simp only [q3, List.mem_append]
              exact Or.inr (by rw [if_pos hR]; exact List.mem_cons_self ..)
            · simp only [q3, List.mem_append]
              refine Or.inl (Or.inl (by
                rw [if_pos (by simp [h1, h2, hR0])]
                exact List.mem_cons_self ..))
          · obtain ⟨g1, g2, g3⟩ := ih hcoR _ it (by
              simp only [q3, List.mem_append]; exact Or.inr hr') c hc
            exact ⟨fun hF => q3_lift _ _ _ _ _ _ _ _ (g1 hF),
              fun hR => q3_lift _ _ _ _ _ _ _ _ (g2 hR),
              fun h1 h2 => q3_lift _ _ _ _ _ _ _ _ (g3 h1 h2)⟩
        · rw [if_neg hR0] at hr
          obtain ⟨g1, g2, g3⟩ := ih hcoR _ it (by
            simp only [q3, List.mem_append]; exact Or.inr hr) c hc
          exact ⟨fun hF => q3_lift _ _ _ _ _ _ _ _ (g1 hF),
            fun hR => q3_lift _ _ _ _ _ _ _ _ (g2 hR),
            fun h1 h2 => q3_lift _ _ _ _ _ _ _ _ (g3 h1 h2)⟩

theorem mem_enumFrom {α : Type} : ∀ (l : List α) (n : Nat) (p : Nat × α),
    p ∈ enumFrom n l → ∃ k, p.1 = n + k ∧ l.get? k = some p.2 := by
  intro l
  induction l with
  | nil => intro n p h; simp [enumFrom] at h
  | cons x xs ih =>
    intro n p h
    rcases List.mem_cons.mp h with rfl | h'
    · exact ⟨0, by simp, rfl⟩
    · obtain ⟨k, hk, hg⟩ := ih (n + 1) p h'
      exact ⟨k + 1, by omega, by simpa using hg⟩

theorem allVocabs_coherent (ds : List VocaCardDataset) :
    ∀ p ∈ allVocabs ds, getCard ds p.1.1 p.1.2 = some p.2 := by
  intro p hp
  unfold allVocabs at hp
  rw [List.mem_flatMap] at hp
  obtain ⟨q, hq, hp2⟩ := hp
  rw [List.mem_map] at hp2
  obtain ⟨r, hr, rfl⟩ := hp2
  obtain ⟨k, hk, hg⟩ := mem_enumFrom _ 0 q hq
  obtain ⟨k2, hk2, hg2⟩ := mem_enumFrom _ 0 r hr
  unfold getCard
  simp only [Nat.zero_add] at hk hk2
  rw [show ((q.1, r.1), r.2).1.1 = q.1 from rfl, show ((q.1, r.1), r.2).1.2 = r.1 from rfl,
    hk, hg, Option.some_bind, hk2, hg2]

theorem insertStable_perm {α : Type} (cmp : α → α → Ordering) (x : α) (l : List α) :
    List.Perm (insertStable cmp x l) (x :: l) := by
  induction l with
  | nil => exact List.Perm.refl _
  | cons y ys ih =>
    unfold insertStable
    by_cases h : cmp y x = Ordering.gt
    · rw [if_pos h]
    · rw [if_neg h]
      exact (ih.cons y).trans (List.Perm.swap x y ys)

theorem foldl_insertStable_perm {α : Type} (cmp : α → α → Ordering) :
    ∀ (l acc : List α),
      List.Perm (l.foldl (fun acc x => insertStable cmp x acc) acc) (acc ++ l) := by
  intro l
  induction l with
  | nil => intro acc; simp
  | cons x xs ih =>
    intro acc
    simp only [List.foldl_cons]
    refine (ih (insertStable cmp x acc)).trans ?_
    refine (List.Perm.append_right xs (insertStable_perm cmp x acc)).trans ?_
    exact List.perm_middle.symm

theorem sortStable_perm {α : Type} (cmp : α → α → Ordering) (l : List α) :
    List.Perm (sortStable cmp l) l := by
  simpa using foldl_insertStable_perm cmp l []

theorem new_queue_eq (datasets : List VocaCardDataset) (mode : FilterMode) (sorted : Bool)
    (limit : Option Nat) (memCfg : MemorizationConfig) (now : NDT) :
    (VocaSession.new datasets mode sorted limit memCfg now).queue =
      q3 (buildQueues mode memCfg now limit
        (if sorted then sortStable vocabOrd (allVocabs datasets) else allVocabs datasets) 0) := rfl

theorem sessionEntries_coherent (datasets : List VocaCardDataset) (sorted : Bool) :
    ∀ p ∈ (if sorted then sortStable vocabOrd (allVocabs datasets) else allVocabs datasets),
      getCard datasets p.1.1 p.1.2 = some p.2 := by
  intro p hp
  apply allVocabs_coherent
  cases sorted with
  | false => simpa using hp
  | true => exact ((sortStable_perm vocabOrd (allVocabs datasets)).mem_iff).mp (by simpa using hp)

/-- Claim C7: with `limit = L` the queue built at construction references
at most `L` distinct cards, and the limit never restricts which direction
(or memorization) items are queued for a card that contributed any item:
whenever any item for a card is in the queue, every item its due flags and
the memorization policy prescribe is in the queue too. -/
theorem session_limit_semantics (datasets : List VocaCardDataset) (mode : FilterMode)
    (sorted : Bool) (memCfg : MemorizationConfig) (now : NDT) (L : Nat) :
    ((VocaSession.new datasets mode sorted (some L) memCfg now).queue.map
      fun it => (it.dataset, it.card)).toFinset.card ≤ L ∧
    ∀ it ∈ (VocaSession.new datasets mode sorted (some L) memCfg now).queue,
      ∀ c, getCard datasets it.dataset it.card = some c →
        (c.is_due false mode now = true →
          (⟨it.dataset, it.card, false, false⟩ : VocabItem) ∈
            (VocaSession.new datasets mode sorted (some L) memCfg now).queue) ∧
        (c.is_due true mode now = true →
          (⟨it.dataset, it.card, true, false⟩ : VocabItem) ∈
            (VocaSession.new datasets mode sorted (some L) memCfg now).queue) ∧
        (c.metadata.isNone = true → memCfg.do_memorization_round = true →
          (⟨it.dataset, it.card, memCfg.memorization_reversed, true⟩ : VocabItem) ∈
            (VocaSession.new datasets mode sorted (some L) memCfg now).queue) := by
  constructor
  · set entries := if sorted then sortStable vocabOrd (allVocabs datasets) else allVocabs datasets
      with hentries
    have hsub : ((VocaSession.new datasets mode sorted (some L) memCfg now).queue.map
        fun it => (it.dataset, it.card)).toFinset ⊆
          (usedCards mode now (some L) entries 0).toFinset := by
      intro x hx
      rw [List.mem_toFinset] at hx ⊢
      rw [List.mem_map] at hx
      obtain ⟨it, hit, rfl⟩ := hx
      rw [new_queue_eq, ← hentries] at hit
      exact buildQueues_refs_used mode memCfg now (some L) entries 0 it hit
    calc ((VocaSession.new datasets mode sorted (some L) memCfg now).queue.map
        fun it => (it.dataset, it.card)).toFinset.card
        ≤ (usedCards mode now (some L) entries 0).toFinset.card := Finset.card_le_card hsub
      _ ≤ (usedCards mode now (some L) entries 0).length := List.toFinset_card_le _
      _ ≤ L - 0 := usedCards_length mode now L entries 0
      _ ≤ L := by omega
  · intro it hit c hc
    rw [new_queue_eq] at hit ⊢
    exact buildQueues_complete mode memCfg now (some L) datasets _
      (sessionEntries_coherent datasets sorted) 0 it hit c hc

def plainDataset : VocaCardDataset :=
  ⟨[plainCard], ("vocab.txt").data, ("en").data, ("de").data⟩

/-- Claim C7, witness: a one-card dataset with limit 1 — the card counts
once, yet the forward item prescribed by its due flags is in the queue. -/
theorem session_limit_semantics_witness :
    ((VocaSession.new [plainDataset] FilterMode.All false (some 1) memOnConfig
      sampleNow).queue.map fun it => (it.dataset, it.card)).toFinset.card ≤ 1 ∧
    (plainCard.is_due false FilterMode.All sampleNow = true →
      (⟨0, 0, false, false⟩ : VocabItem) ∈
        (VocaSession.new [plainDataset] FilterMode.All false (some 1) memOnConfig
          sampleNow).queue) :=
  ⟨(session_limit_semantics [plainDataset] FilterMode.All false memOnConfig sampleNow 1).1,
   (((session_limit_semantics [plainDataset] FilterMode.All false memOnConfig sampleNow 1).2
      ⟨0, 0, false, true⟩ (by decide) plainCard (by decide)).1)⟩

/-- The deck indices a card stores stay below the ladder length. -/
def cardDeckBounds (N : Nat) (c : Vocab) : Bool :=
  match c.metadata with
  | some m => decide (m.deck < N) && decide (m.deck_reverse < N)
  | none => true

/-- All stored deck indices of all cards stay below the ladder length. -/
def DeckBounds (ds : List VocaCardDataset) (N : Nat) : Prop :=
  ∀ d ∈ ds, ∀ c ∈ d.cards, cardDeckBounds N c = true

/-- Every queue item references a valid dataset/card index pair. -/
def ItemsValid (ds : List VocaCardDataset) (q : List VocabItem) : Prop :=
  ∀ it ∈ q, (getCard ds it.dataset it.card).isSome = true

/-- The session invariant that makes the review loop safe. -/
def SessionWF (N : Nat) (s : VocaSession) : Prop :=
  ItemsValid s.datasets s.queue ∧ DeckBounds s.datasets N ∧ s.queue.length ≤ s.total_due

theorem DeckBounds_setCard (ds : List VocaCardDataset) (N i j : Nat) (c : Vocab)
    (hb : DeckBounds ds N) (hc : cardDeckBounds N c = true) :
    DeckBounds (setCard ds i j c) N := by
  intro d hd card hcard
  unfold setCard at hd
  cases hg : ds.get? i with
  | none => rw [hg] at hd; exact hb d hd card hcard
  | some d0 =>
    rw [hg] at hd
    rcases listMemSet _ _ _ _ hd with hd' | rfl
    · exact hb d hd' card hcard
    · rcases listMemSet d0.cards j c card hcard with hc' | rfl
      · exact hb d0 (listGetMem _ _ _ hg) card hc'
      · exact hc

theorem update_metadata_bounds (N nd : Nat) (due : NDT) (rev : Bool) (card : Vocab)
    (hnd : nd < N) (hN1 : 1 ≤ N) (hold : cardDeckBounds N card = true) :
    cardDeckBounds N (card.update_metadata nd due rev) = true := by
  cases rev <;> cases hm : card.metadata <;>
    simp only [Vocab.update_metadata, cardDeckBounds, hm, Option.getD_some, Option.getD_none,
      Bool.false_eq_true, if_false, if_true, VocabMetadata.default] <;>
    simp_all [cardDeckBounds] <;> omega

/-- For a `next_card` call, every due timestamp the ladder could produce
stays within chrono's representable range (so the date addition at
voca_session.rs:227/234 does not panic); other calls perform no date
arithmetic. -/
def opDatesOK (cfg : DeckConfig) : SessionOp → Bool
  | SessionOp.next _ current_date =>
    cfg.deck_intervals.all fun dur => (addDuration current_date dur).isSome
  | _ => true

theorem stepOp_safe (cfg : DeckConfig) (s : VocaSession) (op : SessionOp)
    (hN1 : 1 ≤ cfg.deck_intervals.length) (hN2 : cfg.deck_intervals.length ≤ 255)
    (hop : opDatesOK cfg op = true)
    (hwf : SessionWF cfg.deck_intervals.length s) :
    ∃ s', stepOp cfg s op = some s' ∧ SessionWF cfg.deck_intervals.length s' := by
  obtain ⟨hvalid, hbounds, hlen⟩ := hwf
  cases op with
  | task => exact ⟨s, rfl, hvalid, hbounds, hlen⟩
  | targetLang => exact ⟨s, rfl, hvalid, hbounds, hlen⟩
  | progress =>
    refine ⟨s, ?_, hvalid, hbounds, hlen⟩
    simp only [stepOp, VocaSession.current_progress, if_pos hlen, Option.map_some]
    rfl
  | skip =>
    cases hq : s.queue with
    | nil =>
      refine ⟨s, ?_, hvalid, hbounds, hlen⟩
      simp only [stepOp, VocaSession.skip_card, hq]
    | cons item rest =>
      have hval := hvalid item (hq ▸ List.mem_cons_self ..)
      cases hmem : item.memorization_card with
      | false =>
        refine ⟨⟨s.datasets, rest ++ [item], s.has_changes, s.total_due⟩, ?_, ?_, hbounds, ?_⟩
        · simp [stepOp, VocaSession.skip_card, hq, hmem]
        · intro it hit
          rcases List.mem_append.mp hit with h' | h'
          · exact hvalid it (hq ▸ List.mem_cons_of_mem _ h')
          · rw [List.mem_singleton.mp h']
            exact hval
        · show (rest ++ [item]).length ≤ s.total_due
          have : s.queue.length = rest.length + 1 := by rw [hq]; rfl
          simp only [List.length_append, List.length_singleton]
          omega
      | true =>
        obtain ⟨card, hc⟩ := Option.isSome_iff_exists.mp hval
        refine ⟨⟨setCard s.datasets item.dataset item.card
          { card with metadata := some VocabMetadata.default }, rest, true, s.total_due⟩,
          ?_, ?_, ?_, ?_⟩
        · simp only [stepOp, VocaSession.skip_card, hq, hmem, Bool.not_true,
            Bool.false_eq_true, if_false, hc]
        · intro it hit
          rw [getCard_setCard_isSome _ _ _ _ _ _ (by rw [hc]; rfl)]
          exact hvalid it (hq ▸ List.mem_cons_of_mem _ hit)
        · refine DeckBounds_setCard _ _ _ _ _ hbounds ?_
          simp [cardDeckBounds, VocabMetadata.default]
          omega
        · show rest.length ≤ s.total_due
          have : s.queue.length = rest.length + 1 := by rw [hq]; rfl
          omega
  | next b now =>
    cases hq : s.queue with
    | nil =>
      refine ⟨s, ?_, hvalid, hbounds, hlen⟩
      simp only [stepOp, VocaSession.next_card, hq]
    | cons item rest =>
      have hval := hvalid item (hq ▸ List.mem_cons_self ..)
      obtain ⟨card, hc⟩ := Option.isSome_iff_exists.mp hval
      cases hmem : item.memorization_card with
      | true =>
        refine ⟨⟨setCard s.datasets item.dataset item.card
          { card with metadata := some VocabMetadata.default }, rest, true, s.total_due⟩,
          ?_, ?_, ?_, ?_⟩
        · simp only [stepOp, VocaSession.next_card, hq, hc, hmem, if_true]
        · intro it hit
          rw [getCard_setCard_isSome _ _ _ _ _ _ (by rw [hc]; rfl)]
          exact hvalid it (hq ▸ List.mem_cons_of_mem _ hit)
        · refine DeckBounds_setCard _ _ _ _ _ hbounds ?_
          simp [cardDeckBounds, VocabMetadata.default]
          omega
        · show rest.length ≤ s.total_due
          have : s.queue.length = rest.length + 1 := by rw [hq]; rfl
          omega
      | false =>
        have hcardb : cardDeckBounds cfg.deck_intervals.length card = true := by
          have hc' := hc
          unfold getCard at hc'
          cases hg : s.datasets.get? item.dataset with
          | none => rw [hg] at hc'; exact absurd hc' (by simp)
          | some d =>
            rw [hg, Option.some_bind] at hc'
            exact hbounds d (listGetMem _ _ _ hg) card (listGetMem _ _ _ hc')
        have hd : (card.get_deck item.reverse).getD 0 < cfg.deck_intervals.length := by
          cases hmeta : card.metadata with
          | none => simp [Vocab.get_deck, hmeta]; omega
          | some m =>
            simp only [cardDeckBounds, hmeta, Bool.and_eq_true, decide_eq_true_eq] at hcardb
            simp only [Vocab.get_deck, hmeta, Option.map_some, Option.getD_some]
            cases item.reverse <;> simp <;> omega
        obtain ⟨hlt, dur, hget, heq⟩ :=
          next_card_graded_eq s item rest cfg now b card _ hq hmem hc hN1 hN2 hd rfl
        have haddok : (addDuration now dur).isSome = true := by
          simp only [opDatesOK, List.all_eq_true] at hop
          exact hop dur (listGetMem _ _ _ hget)
        obtain ⟨due, hdue⟩ := Option.isSome_iff_exists.mp haddok
        rw [hdue] at heq
        refine ⟨_, by simpa only [stepOp] using heq, ?_, ?_, ?_⟩
        · intro it hit
          rw [getCard_setCard_isSome _ _ _ _ _ _ (by rw [hc]; rfl)]
          cases b with
          | true =>
            have hit' : it ∈ rest := hit
            exact hvalid it (hq ▸ List.mem_cons_of_mem _ hit')
          | false =>
            have hit' : it ∈ rest ++ [item] := hit
            rcases List.mem_append.mp hit' with h' | h'
            · exact hvalid it (hq ▸ List.mem_cons_of_mem _ h')
            · rw [List.mem_singleton.mp h']
              exact hval
        · exact DeckBounds_setCard _ _ _ _ _ hbounds
            (update_metadata_bounds _ _ _ _ _ hlt hN1 hcardb)
        · have hql : s.queue.length = rest.length + 1 := by rw [hq]; rfl
          cases b with
          | true =>
            show rest.length ≤ s.total_due
            omega
          | false =>
            show (rest ++ [item]).length ≤ s.total_due
            simp only [List.length_append, List.length_singleton]
            omega

theorem runOps_safe (cfg : DeckConfig) (hN1 : 1 ≤ cfg.deck_intervals.length)
    (hN2 : cfg.deck_intervals.length ≤ 255) :
    ∀ (ops : List SessionOp), (∀ op ∈ ops, opDatesOK cfg op = true) →
      ∀ (s : VocaSession), SessionWF cfg.deck_intervals.length s →
        (runOps cfg s ops).isSome = true := by
  intro ops
  induction ops with
  | nil => intro _ s _; rfl
  | cons op rest ih =>
    intro hops s hwf
    obtain ⟨s', hstep, hwf'⟩ :=
      stepOp_safe cfg s op hN1 hN2 (hops op (List.mem_cons_self ..)) hwf
    unfold runOps
    rw [hstep, Option.some_bind]
    exact ih (fun o ho => hops o (List.mem_cons_of_mem _ ho)) s' hwf'

theorem usedCards_mem_entries (mode : FilterMode) (now : NDT) (limit : Option Nat) :
    ∀ (entries : List ((Nat × Nat) × Vocab)) (n : Nat) (x : Nat × Nat),
      x ∈ usedCards mode now limit entries n → ∃ c, (x, c) ∈ entries := by
  intro entries
  induction entries with
  | nil => intro n x h; simp [usedCards] at h
  | cons e rest ih =>
    intro n x h
    obtain ⟨ij, card⟩ := e
    unfold usedCards at h
    by_cases hl : limitHit limit n = true
    · rw [if_pos hl] at h
      simp at h
    · rw [if_neg hl] at h
      by_cases hu : (card.is_due false mode now || card.is_due true mode now) = true
      · rw [if_pos hu] at h
        rcases List.mem_cons.mp h with rfl | h'
        · exact ⟨card, List.mem_cons_self ..⟩
        · obtain ⟨c, hc⟩ := ih (n + 1) x h'
          exact ⟨c, List.mem_cons_of_mem _ hc⟩
      · rw [if_neg hu] at h
        obtain ⟨c, hc⟩ := ih n x h
        exact ⟨c, List.mem_cons_of_mem _ hc⟩

theorem new_wf (datasets : List VocaCardDataset) (mode : FilterMode) (sorted : Bool)
    (limit : Option Nat) (memCfg : MemorizationConfig) (now : NDT) (N : Nat)
    (hb : DeckBounds datasets N) :
    SessionWF N (VocaSession.new datasets mode sorted limit memCfg now) := by
  refine ⟨?_, hb, Nat.le_refl _⟩
  intro it hit
  rw [new_queue_eq] at hit
  have href := buildQueues_refs_used mode memCfg now limit _ 0 it hit
  obtain ⟨c, hce⟩ := usedCards_mem_entries mode now limit _ 0 _ href
  have hco := sessionEntries_coherent datasets sorted _ hce
  show (getCard datasets it.dataset it.card).isSome = true
  rw [show getCard datasets it.dataset it.card =
    getCard datasets ((it.dataset, it.card), c).1.1 ((it.dataset, it.card), c).1.2 from rfl, hco]
  rfl

/-- Claim C2 (amended: the interval ladder must have between 1 and 255
rungs, every deck index stored in the parsed files must be below the
ladder length, and every due timestamp the ladder can produce — `now`
plus any rung's interval — must stay within chrono's representable date
range; the counterexamples show the claim fails for decks the parser
accepts but the ladder cannot index, and for a config-accepted ladder
whose interval overflows the date addition): every sequence of
review-loop calls — `current_task`, `current_target_lang`, `next_card`,
`skip_card`, `current_progress` — on a session built from successfully
parsed files completes without a runtime error: no queue, card or
interval index goes out of bounds, no deck arithmetic overflows or
underflows, and no due-date addition leaves the representable range. -/
theorem review_loop_no_runtime_errors (files : List (Str × List Str)) (mode : FilterMode)
    (sorted : Bool) (limit : Option Nat) (memCfg : MemorizationConfig) (now : NDT)
    (s : VocaSession) (cfg : DeckConfig) (ops : List SessionOp)
    (hs : VocaSession.from_files files mode sorted limit memCfg now = some s)
    (hN1 : 1 ≤ cfg.deck_intervals.length) (hN2 : cfg.deck_intervals.length ≤ 255)
    (hdecks : DeckBounds s.datasets cfg.deck_intervals.length)
    (hdates : ∀ op ∈ ops, opDatesOK cfg op = true) :
    (runOps cfg s ops).isSome = true := by
  unfold VocaSession.from_files at hs
  cases hm : files.mapM fun f => VocaCardDataset.fromLines f.1 f.2 with
  | none => rw [hm] at hs; exact absurd hs (by simp)
  | some datasets =>
    rw [hm] at hs
    simp only [Option.bind_eq_bind, Option.some_bind] at hs
    obtain rfl := Option.some.inj hs
    exact runOps_safe cfg hN1 hN2 ops hdates _ (new_wf datasets mode sorted limit memCfg now _ hdecks)

/-- A dataset file whose card is stored on deck 10 — a value the parser
accepts but the default-sized nine-rung ladder cannot index. -/
def deck10Lines : List Str :=
  [("en\tde").data, ("a\tb\t10\t2023-10-01 12:00:00\t10\t2023-10-01 12:00:00").data]

/-- Claim C2, counterexample: on a session loaded from a successfully
parsed file whose card sits on deck 10 with a nine-rung ladder, a single
incorrect answer makes `next_card` index `interval[9]` out of bounds — a
runtime panic (modelled as `none`); and even with in-range decks, a
config-accepted one-rung ladder of 4294967295 days makes the due-date
addition leave chrono's representable range, so the very first graded
answer panics. Both refute the claim for arbitrary parsed files and
configurations. -/
theorem review_loop_no_runtime_errors_counterexample :
    (VocaCardDataset.fromLines ("vocab.txt").data deck10Lines).isSome = true ∧
    ((VocaCardDataset.fromLines ("vocab.txt").data deck10Lines).map fun d =>
      runOps ladder9 (VocaSession.new [d] FilterMode.All false none memOffConfig sampleNow)
        [SessionOp.next false sampleNow]) = some none ∧
    (VocaCardDataset.fromLines ("vocab2.txt").data unseenLines).isSome = true ∧
    ((VocaCardDataset.fromLines ("vocab2.txt").data unseenLines).map fun d =>
      runOps hugeLadder (VocaSession.new [d] FilterMode.All false none memOffConfig sampleNow)
        [SessionOp.next true sampleNow]) = some none := by
  refine ⟨by decide, by decide, by decide, by decide⟩

def wellFormedDataset : VocaCardDataset :=
  ⟨[cardDeck3], ("vocab.txt").data, ("en").data, ("de").data⟩

/-- Claim C2, witness: a full review pass over a concrete well-formed
session completes. -/
theorem review_loop_no_runtime_errors_witness :
    (runOps ladder9 (VocaSession.new [wellFormedDataset] FilterMode.All false none
      memOffConfig sampleNow)
      [SessionOp.task, SessionOp.targetLang, SessionOp.next true sampleNow, SessionOp.skip,
        SessionOp.next false sampleNow, SessionOp.progress]).isSome = true :=
  review_loop_no_runtime_errors [(("vocab.txt").data, [("en\tde").data,
      ("a\tb\t3\t2023-10-01 12:00:00\t3\t2023-10-01 12:00:00").data])]
    FilterMode.All false none memOffConfig sampleNow _ ladder9 _
    (by decide) (by decide) (by decide)
    (by
      intro d hd c hc
      rw [List.mem_singleton.mp hd] at hc
      rw [show c = cardDeck3 from List.mem_singleton.mp hc]
      decide)
    (by decide)
